import Mathlib

/-!
# A verification model of the SmoothArray repository

This file gives a shallow embedding, in Lean 4, of the two Python container
classes of the repository:

* `SmoothArray`  (src/smootharray.py)   — dual-buffer, incrementally migrating
  dynamic array ("IncrementalArray" in the specification),
* `AmortizedArray` (src/amortizedarray.py) — growth-by-doubling dynamic array
  ("DoublingArray" in the specification),

together with theorems settling the frozen claims about the specification.

## Modelling conventions

* Python element values are modelled by `V := Option Int`: `some k` is the
  integer `k` and `none` is Python's `None` (which the source itself stores,
  e.g. `insert` appends a `None` placeholder).
* A ctypes buffer `(n*ctypes.py_object)()` is modelled by a `List (Option V)`
  of length `n`; a slot holds `none` while it has never been written
  (reading such a slot raises `ValueError` in Python) and `some v` once the
  value `v` has been stored in it.
* The `_data1`/`_data2`/`_data` attributes are `Option Buf`: `none` models the
  Python value `None` (no buffer allocated); subscripting `None` raises
  `TypeError` in Python.
* ctypes arrays accept Python-style negative indices (an index `i < 0`
  addresses slot `len + i`), and raise `IndexError` outside the range;
  `bufGet`/`bufSet` reproduce this.
* Operations that can raise are modelled with `Except S S`: `.ok s` is normal
  return with resulting state `s`, `.error s` is an exception escaping the
  operation with the (possibly partially mutated — Python does not roll back)
  state `s`.  All error kinds (`IndexError`, `ValueError`, `TypeError`) are
  collapsed into `.error`; the claims under study distinguish only whether an
  operation raises, not which exception class it raises.
* Loops are translated to fuel-based recursion with fuel provably at least the
  number of iterations the Python loop can execute, so the fuel-exhaustion
  branch is never taken on the arguments the model is invoked with.
-/

/-- Python element values: `some k` an integer, `none` Python's `None`. -/
abbrev V : Type := Option Int

/-- A fixed-length ctypes buffer of `py_object` slots: `none` = never written. -/
abbrev Buf : Type := List (Option V)

/-- Read `b[i]` for a possibly-absent ctypes buffer `b`, with Python negative
indexing.  Returns `none` when Python raises: `b` is `None` (`TypeError`),
the index is out of range (`IndexError`) or the slot was never written
(`ValueError`). -/
def bufGet (b : Option Buf) (i : Int) : Option V :=
  match b with
  | none => none
  | some a =>
    let j : Int := if i < 0 then i + a.length else i
    if 0 ≤ j ∧ j < (a.length : Int) then a.getD j.toNat none else none

/-- Write `b[i] = v` for a possibly-absent ctypes buffer `b`, with Python
negative indexing.  Returns `none` when Python raises (absent buffer or
index out of range). -/
def bufSet (b : Option Buf) (i : Int) (v : V) : Option Buf :=
  match b with
  | none => none
  | some a =>
    let j : Int := if i < 0 then i + a.length else i
    if 0 ≤ j ∧ j < (a.length : Int) then some (a.set j.toNat (some v)) else none

/-- The state of a `SmoothArray` (src/smootharray.py, `__init__`):
`_capacity`, `_size`, `_data1` (old buffer), `_data2` (new buffer),
`_move` (start of the not-yet-migrated range) and `_stop` (its end+1).
`move`/`stop` are integers because the source can drive `_move` below zero. -/
structure SA where
  capacity : Nat
  size : Nat
  d1 : Option Buf
  d2 : Option Buf
  move : Int
  stop : Int
deriving DecidableEq

/-- A freshly constructed `SmoothArray()` before any appends. -/
def SA.empty : SA :=
  { capacity := 0, size := 0, d1 := none, d2 := none, move := 0, stop := 0 }

/-- `SmoothArray.__getitem__` for an integral index: normalize a negative
index by `size`, bounds-check against `[0, size)`, then read `_data1[i]` when
`_move <= i < _stop` and `_data2[i]` otherwise. -/
def SA.getItem (s : SA) (i : Int) : Option V :=
  let j : Int := if i < 0 then (s.size : Int) + i else i
  if 0 ≤ j ∧ j < (s.size : Int) then
    if s.move ≤ j ∧ j < s.stop then bufGet s.d1 j else bufGet s.d2 j
  else none

/-- `SmoothArray.__setitem__` for an integral index: same normalization,
bounds check and buffer resolution as `__getitem__`, then a single slot
write.  A failed write raises with the state untouched. -/
def SA.setItem (s : SA) (i : Int) (v : V) : Except SA SA :=
  let j : Int := if i < 0 then (s.size : Int) + i else i
  if 0 ≤ j ∧ j < (s.size : Int) then
    if s.move ≤ j ∧ j < s.stop then
      match bufSet s.d1 j v with
      | some a => .ok { s with d1 := some a }
      | none => .error s
    else
      match bufSet s.d2 j v with
      | some a => .ok { s with d2 := some a }
      | none => .error s
  else .error s

/-- The shift loop of `SmoothArray.__delitem__`:
`for j in range(j, stop): self[j-1] = self[j]`, each iteration a
`__getitem__` followed by a `__setitem__`.  `fuel` bounds the iteration
count (the callers pass the number of remaining iterations). -/
def SA.shift (s : SA) (j : Int) (stop : Int) (fuel : Nat) : Except SA SA :=
  match fuel with
  | 0 => .ok s
  | fuel + 1 =>
    if j < stop then
      match s.getItem j with
      | none => .error s
      | some v =>
        match s.setItem (j - 1) v with
        | .ok t => SA.shift t (j + 1) stop fuel
        | .error t => .error t
    else .ok s

/-- `SmoothArray.__delitem__` for an integral index: normalize and
bounds-check, shift `[i+1, size)` one slot left, decrement `_size`, then
(in this order) decrement `_move` if `i <= _move` and decrement `_stop` if
`i < _stop`. -/
def SA.delItem (s : SA) (i : Int) : Except SA SA :=
  let j : Int := if i < 0 then (s.size : Int) + i else i
  if 0 ≤ j ∧ j < (s.size : Int) then
    match SA.shift s (j + 1) (s.size : Int) s.size with
    | .error t => .error t
    | .ok t =>
      let t1 : SA := { t with size := t.size - 1 }
      let t2 : SA := if j ≤ t1.move then { t1 with move := t1.move - 1 } else t1
      let t3 : SA := if j < t2.stop then { t2 with stop := t2.stop - 1 } else t2
      .ok t3
  else .error s

/-- The tail of `SmoothArray.append`: `self._data2[self._size] = item;
self._size += 1`. -/
def SA.finishAppend (s : SA) (v : V) : Except SA SA :=
  match bufSet s.d2 (s.size : Int) v with
  | none => .error s
  | some a => .ok { s with d2 := some a, size := s.size + 1 }

/-- The head of `SmoothArray.append`: allocate capacity 1 on the first
append; else if full, start a new migration epoch (`_move := 0`,
`_stop := _capacity`, double `_capacity`, `_data1 := _data2`, fresh
`_data2`); else leave the state unchanged.  Note `_data1 := _data2` is a
pointer move in Python, not an element copy. -/
def SA.resizeStage (s : SA) : SA :=
  if s.capacity = 0 then
    { s with capacity := 1, d2 := some (List.replicate 1 none) }
  else if s.size = s.capacity then
    { s with move := 0, stop := (s.capacity : Int), capacity := s.capacity * 2,
             d1 := s.d2, d2 := some (List.replicate (s.capacity * 2) none) }
  else s

/-- `SmoothArray.append`: the resize stage, then move at most one item from
`_data1` to `_data2`, then store the item at `_size`. -/
def SA.append (s : SA) (v : V) : Except SA SA :=
  let s1 : SA := s.resizeStage
  if s1.move < s1.stop then
    match bufGet s1.d1 s1.move with
    | none => .error s1
    | some v1 =>
      match bufSet s1.d2 s1.move v1 with
      | none => .error s1
      | some a => SA.finishAppend { s1 with d2 := some a, move := s1.move + 1 } v
  else SA.finishAppend s1 v

/-- The shift loop of `SmoothArray.insert`:
`while j > i: self[j] = self[j-1]; j -= 1`.  The Python loop always
terminates: either `j` reaches `i`, or reading `self[j-1]` raises once
`j-1` normalizes below 0, after at most `2*size+2` iterations; the fuel
passed by `SA.insert` covers both. -/
def SA.insLoop (s : SA) (j : Int) (i : Int) (fuel : Nat) : Except SA SA :=
  match fuel with
  | 0 => .ok s
  | fuel + 1 =>
    if i < j then
      match s.getItem (j - 1) with
      | none => .error s
      | some v =>
        match s.setItem j v with
        | .ok t => SA.insLoop t (j - 1) i fuel
        | .error t => .error t
    else .ok s

/-- `SmoothArray.insert`: `j = self._size; self.append(None); while j > i:
self[j] = self[j-1]; j -= 1; self[i] = item`.  Note the source performs no
bounds check of its own. -/
def SA.insert (s : SA) (i : Int) (v : V) : Except SA SA :=
  let j : Int := (s.size : Int)
  match s.append none with
  | .error t => .error t
  | .ok t =>
    match SA.insLoop t j i (2 * t.size + 2) with
    | .error u => .error u
    | .ok u => u.setItem i v

/-- Iterating a `SmoothArray` from index `k` (the `Sequence` iteration
protocol: read `self[k]`, `self[k+1]`, … until `IndexError`, i.e. until
`k = size`; a read failing below `size` raises out of the iteration).
`fuel` is the number of indices left to visit. -/
def SA.iterFrom (s : SA) (k : Nat) (fuel : Nat) : Option (List V) :=
  match fuel with
  | 0 => some []
  | fuel + 1 =>
    if k < s.size then
      match s.getItem (k : Int) with
      | none => none
      | some v =>
        match s.iterFrom (k + 1) fuel with
        | none => none
        | some l => some (v :: l)
    else some []

/-- The full element sequence observed by iterating the container
(`list(self)`), or `none` if some read raises. -/
def SA.iterAll (s : SA) : Option (List V) := s.iterFrom 0 s.size

/-- Modelled from the spec / Python builtin: `sorted(l)` for a list whose
elements are ints or `None`.  In Python 3 comparing `None` with anything
raises `TypeError`; a list of length ≥ 2 containing a `None` always performs
such a comparison, while a list of length ≤ 1 performs none.  For all-int
lists, the stable ascending sort of ints. -/
def pySorted (l : List V) : Option (List V) :=
  if l.length ≤ 1 then some l
  else if l.all (fun v => v.isSome) then
    some (((l.filterMap id).insertionSort (· ≤ ·)).map some)
  else none

/-- The write-back loop of `sort`: `for i in range(self._size): self[i] = s[i]`,
with `s` the sorted snapshot (whose length equals `_size`). -/
def SA.writeBack (s : SA) (i : Nat) (l : List V) : Except SA SA :=
  match l with
  | [] => .ok s
  | v :: rest =>
    match s.setItem (i : Int) v with
    | .ok t => SA.writeBack t (i + 1) rest
    | .error t => .error t

/-- `SmoothArray.sort(key=None, reverse=False)`: `s = sorted(self)` —
note the source passes neither `key` nor `reverse` to `sorted`, so both
parameters are ignored — then writes the snapshot back in place. -/
def SA.sortOp (s : SA) (key : Option (V → V)) (rev : Bool) : Except SA SA :=
  match s.iterAll with
  | none => .error s
  | some l =>
    match pySorted l with
    | none => .error s
    | some l2 => s.writeBack 0 l2

/-- Modelled from the spec (`reverse()`: reverse element order in place,
the `MutableSequence` mixin over `__getitem__`/`__setitem__`):
`for i in range(n // 2): self[i], self[n-i-1] = self[n-i-1], self[i]`. -/
def SA.revLoop (s : SA) (i : Nat) (n : Nat) (fuel : Nat) : Except SA SA :=
  match fuel with
  | 0 => .ok s
  | fuel + 1 =>
    if i < n / 2 then
      match s.getItem ((n : Int) - i - 1) with
      | none => .error s
      | some a =>
        match s.getItem (i : Int) with
        | none => .error s
        | some b =>
          match s.setItem (i : Int) a with
          | .error t => .error t
          | .ok t =>
            match t.setItem ((n : Int) - i - 1) b with
            | .error u => .error u
            | .ok u => SA.revLoop u (i + 1) n fuel
    else .ok s

/-- `reverse()` on a `SmoothArray` (spec §4.1, via the dual-buffer-aware
`get`/`set`). -/
def SA.reverseOp (s : SA) : Except SA SA := s.revLoop 0 s.size (s.size / 2)

/-- The scan of `index(v)` (spec `remove`/`index`: linear scan for the first
match by equality) from index `k`: `none` when a read raises or no element
matches (Python raises `ValueError` in both cases). -/
def SA.idxGo (s : SA) (v : V) (k : Nat) (fuel : Nat) : Option Nat :=
  match fuel with
  | 0 => none
  | fuel + 1 =>
    if k < s.size then
      match s.getItem (k : Int) with
      | none => none
      | some w => if w = v then some k else s.idxGo v (k + 1) fuel
    else none

/-- `index(v)`: index of the first element equal to `v`. -/
def SA.indexOf (s : SA) (v : V) : Option Nat := s.idxGo v 0 s.size

/-- Modelled from the spec (`remove(v)`: delete the first element equal to
`v`; `NotFound` if absent — the `MutableSequence` mixin
`del self[self.index(value)]`). -/
def SA.removeOp (s : SA) (v : V) : Except SA SA :=
  match s.indexOf v with
  | none => .error s
  | some k => s.delItem (k : Int)

/-- Modelled from the spec (`pop(i)`: return and delete the element at `i` —
the mixin `v = self[index]; del self[index]; return v`). -/
def SA.popOp (s : SA) (i : Int) : Except SA (SA × V) :=
  match s.getItem i with
  | none => .error s
  | some v =>
    match s.delItem i with
    | .ok t => .ok (t, v)
    | .error t => .error t

/-- Modelled from the spec (`extend(seq)`: append each element of `seq` in
order). -/
def SA.extend (s : SA) (l : List V) : Except SA SA :=
  match l with
  | [] => .ok s
  | v :: rest =>
    match s.append v with
    | .ok t => t.extend rest
    | .error t => .error t

/-- The element-copy loop of `SmoothArray.copy`:
`for i in range(self._size): if self._move <= i < self._stop and self._data1
is not None: c._data1[i] = self._data1[i] elif self._data2 is not None:
c._data2[i] = self._data2[i]`.  A raising read or write aborts the copy
(the partially built clone is discarded, the source is untouched). -/
def SA.copyLoop (src : SA) (c : SA) (i : Nat) (fuel : Nat) : Option SA :=
  match fuel with
  | 0 => some c
  | fuel + 1 =>
    if i < src.size then
      if (src.move ≤ (i : Int) ∧ (i : Int) < src.stop) ∧ src.d1.isSome then
        match bufGet src.d1 (i : Int) with
        | none => none
        | some v =>
          match bufSet c.d1 (i : Int) v with
          | none => none
          | some a => src.copyLoop { c with d1 := some a } (i + 1) fuel
      else if src.d2.isSome then
        match bufGet src.d2 (i : Int) with
        | none => none
        | some v =>
          match bufSet c.d2 (i : Int) v with
          | none => none
          | some a => src.copyLoop { c with d2 := some a } (i + 1) fuel
      else src.copyLoop c (i + 1) fuel
    else some c

/-- `SmoothArray.copy`: build a fresh empty clone, copy `_capacity` and
`_size`, allocate fresh buffers of the same lengths (or `None`), copy the
live slot for each index in `[0, size)` through the migration-range test,
then copy `_move` and `_stop`. -/
def SA.copy (s : SA) : Option SA :=
  let c : SA :=
    { SA.empty with
      capacity := s.capacity, size := s.size,
      d1 := s.d1.map (fun a => List.replicate a.length none),
      d2 := s.d2.map (fun a => List.replicate a.length none) }
  match s.copyLoop c 0 s.size with
  | none => none
  | some c2 => some { c2 with move := s.move, stop := s.stop }

/-- `SmoothArray.clear` as defined in src/smootharray.py (lines 224–226):
`self.__init__()`, resetting every attribute to the freshly-constructed
state.  (The source guards this definition with
`if sys.version_info.major < 3`; under Python 3 the class would instead
inherit `MutableSequence.clear`, which pops elements one at a time and
retains `_capacity` and the buffers.) -/
def SA.clearOp (_ : SA) : SA := SA.empty

/-- Collapse an `Except SA SA` to the state the container is left in,
whether or not the operation raised (Python exceptions do not roll back). -/
def runOk : Except SA SA → SA
  | .ok s => s
  | .error s => s

/-- `SmoothArray(seq)` for a tuple of ints: construction appends each
element in order. -/
def mkSA (l : List Int) : SA := runOk (SA.empty.extend (l.map some))

/-- The state of an `AmortizedArray` (src/amortizedarray.py, `__init__`):
`_capacity`, `_size` and the single buffer `_data`. -/
structure AA where
  capacity : Nat
  size : Nat
  d : Option Buf
deriving DecidableEq

/-- A freshly constructed `AmortizedArray()`. -/
def AA.empty : AA := { capacity := 0, size := 0, d := none }

/-- `AmortizedArray.__getitem__` for an integral index. -/
def AA.getItem (a : AA) (i : Int) : Option V :=
  let j : Int := if i < 0 then (a.size : Int) + i else i
  if 0 ≤ j ∧ j < (a.size : Int) then bufGet a.d j else none

/-- `AmortizedArray.__setitem__` for an integral index. -/
def AA.setItem (a : AA) (i : Int) (v : V) : Except AA AA :=
  let j : Int := if i < 0 then (a.size : Int) + i else i
  if 0 ≤ j ∧ j < (a.size : Int) then
    match bufSet a.d j v with
    | some b => .ok { a with d := some b }
    | none => .error a
  else .error a

/-- The shift loop of `AmortizedArray.__delitem__`. -/
def AA.shift (a : AA) (j : Int) (stop : Int) (fuel : Nat) : Except AA AA :=
  match fuel with
  | 0 => .ok a
  | fuel + 1 =>
    if j < stop then
      match a.getItem j with
      | none => .error a
      | some v =>
        match a.setItem (j - 1) v with
        | .ok t => AA.shift t (j + 1) stop fuel
        | .error t => .error t
    else .ok a

/-- `AmortizedArray.__delitem__`: normalize, bounds-check, shift
`[i+1, size)` one slot left, decrement `_size`. -/
def AA.delItem (a : AA) (i : Int) : Except AA AA :=
  let j : Int := if i < 0 then (a.size : Int) + i else i
  if 0 ≤ j ∧ j < (a.size : Int) then
    match AA.shift a (j + 1) (a.size : Int) a.size with
    | .error t => .error t
    | .ok t => .ok { t with size := t.size - 1 }
  else .error a

/-- The resize copy loop of `AmortizedArray.append`:
`for i in range(old_capacity): self._data[i] = old_data[i]` — the full
bulk copy of the old buffer into the new one. -/
def AA.resizeLoop (old : Buf) (b : Buf) (i : Nat) (fuel : Nat) : Option Buf :=
  match fuel with
  | 0 => some b
  | fuel + 1 =>
    if i < old.length then
      match old.getD i none with
      | none => none
      | some v =>
        match bufSet (some b) (i : Int) v with
        | none => none
        | some b2 => AA.resizeLoop old b2 (i + 1) fuel
    else some b

/-- `AmortizedArray.append`: allocate capacity 1 on the first append; else
if full, double `_capacity`, allocate a fresh buffer and copy every slot of
the old buffer into it; then store the item at `_size`, increment `_size`.
A raising copy loop leaves `_capacity` doubled and `_data` partially
filled (Python does not roll back). -/
def AA.append (a : AA) (v : V) : Except AA AA :=
  let step1 : Except AA AA :=
    if a.capacity = 0 then
      .ok { a with capacity := 1, d := some (List.replicate 1 none) }
    else if a.size = a.capacity then
      match a.d with
      | none => .error a
      | some old =>
        match AA.resizeLoop old (List.replicate (a.capacity * 2) none) 0 old.length with
        | none => .error { a with capacity := a.capacity * 2,
                                  d := some (List.replicate (a.capacity * 2) none) }
        | some b => .ok { a with capacity := a.capacity * 2, d := some b }
    else .ok a
  match step1 with
  | .error t => .error t
  | .ok t =>
    match bufSet t.d (t.size : Int) v with
    | none => .error t
    | some b => .ok { t with d := some b, size := t.size + 1 }

/-- The shift loop of `AmortizedArray.insert` (identical to the
`SmoothArray` one). -/
def AA.insLoop (a : AA) (j : Int) (i : Int) (fuel : Nat) : Except AA AA :=
  match fuel with
  | 0 => .ok a
  | fuel + 1 =>
    if i < j then
      match a.getItem (j - 1) with
      | none => .error a
      | some v =>
        match a.setItem j v with
        | .ok t => AA.insLoop t (j - 1) i fuel
        | .error t => .error t
    else .ok a

/-- `AmortizedArray.insert`: `j = self._size; self.append(None); while j > i:
self[j] = self[j-1]; j -= 1; self[i] = item`; no bounds check of its own. -/
def AA.insert (a : AA) (i : Int) (v : V) : Except AA AA :=
  let j : Int := (a.size : Int)
  match a.append none with
  | .error t => .error t
  | .ok t =>
    match AA.insLoop t j i (2 * t.size + 2) with
    | .error u => .error u
    | .ok u => u.setItem i v

/-- Iterating an `AmortizedArray` from index `k`. -/
def AA.iterFrom (a : AA) (k : Nat) (fuel : Nat) : Option (List V) :=
  match fuel with
  | 0 => some []
  | fuel + 1 =>
    if k < a.size then
      match a.getItem (k : Int) with
      | none => none
      | some v =>
        match a.iterFrom (k + 1) fuel with
        | none => none
        | some l => some (v :: l)
    else some []

/-- The element sequence observed by iterating the container. -/
def AA.iterAll (a : AA) : Option (List V) := a.iterFrom 0 a.size

/-- The write-back loop of `AmortizedArray.sort`. -/
def AA.writeBack (a : AA) (i : Nat) (l : List V) : Except AA AA :=
  match l with
  | [] => .ok a
  | v :: rest =>
    match a.setItem (i : Int) v with
    | .ok t => AA.writeBack t (i + 1) rest
    | .error t => .error t

/-- `AmortizedArray.sort(key=None, reverse=False)`: `s = sorted(self)` —
the source passes neither `key` nor `reverse` to `sorted`, so both are
ignored — then writes the snapshot back in place. -/
def AA.sortOp (a : AA) (key : Option (V → V)) (rev : Bool) : Except AA AA :=
  match a.iterAll with
  | none => .error a
  | some l =>
    match pySorted l with
    | none => .error a
    | some l2 => a.writeBack 0 l2

/-- Modelled from the spec (`reverse()` in place, via `get`/`set`). -/
def AA.revLoop (a : AA) (i : Nat) (n : Nat) (fuel : Nat) : Except AA AA :=
  match fuel with
  | 0 => .ok a
  | fuel + 1 =>
    if i < n / 2 then
      match a.getItem ((n : Int) - i - 1) with
      | none => .error a
      | some x =>
        match a.getItem (i : Int) with
        | none => .error a
        | some y =>
          match a.setItem (i : Int) x with
          | .error t => .error t
          | .ok t =>
            match t.setItem ((n : Int) - i - 1) y with
            | .error u => .error u
            | .ok u => AA.revLoop u (i + 1) n fuel
    else .ok a

/-- `reverse()` on an `AmortizedArray`. -/
def AA.reverseOp (a : AA) : Except AA AA := a.revLoop 0 a.size (a.size / 2)

/-- The `index(v)` scan for `AmortizedArray`. -/
def AA.idxGo (a : AA) (v : V) (k : Nat) (fuel : Nat) : Option Nat :=
  match fuel with
  | 0 => none
  | fuel + 1 =>
    if k < a.size then
      match a.getItem (k : Int) with
      | none => none
      | some w => if w = v then some k else a.idxGo v (k + 1) fuel
    else none

/-- `index(v)` for `AmortizedArray`. -/
def AA.indexOf (a : AA) (v : V) : Option Nat := a.idxGo v 0 a.size

/-- Modelled from the spec (`remove(v)`: delete the first match). -/
def AA.removeOp (a : AA) (v : V) : Except AA AA :=
  match a.indexOf v with
  | none => .error a
  | some k => a.delItem (k : Int)

/-- Modelled from the spec (`pop(i)`: return and delete). -/
def AA.popOp (a : AA) (i : Int) : Except AA (AA × V) :=
  match a.getItem i with
  | none => .error a
  | some v =>
    match a.delItem i with
    | .ok t => .ok (t, v)
    | .error t => .error t

/-- Modelled from the spec (`extend(seq)`). -/
def AA.extend (a : AA) (l : List V) : Except AA AA :=
  match l with
  | [] => .ok a
  | v :: rest =>
    match a.append v with
    | .ok t => t.extend rest
    | .error t => .error t

/-- The element-copy loop of `AmortizedArray.copy`:
`for i in range(self._size): c._data[i] = self._data[i]`. -/
def AA.copyLoop (src : AA) (c : AA) (i : Nat) (fuel : Nat) : Option AA :=
  match fuel with
  | 0 => some c
  | fuel + 1 =>
    if i < src.size then
      match bufGet src.d (i : Int) with
      | none => none
      | some v =>
        match bufSet c.d (i : Int) v with
        | none => none
        | some b => src.copyLoop { c with d := some b } (i + 1) fuel
    else some c

/-- `AmortizedArray.copy`: fresh clone with `_capacity`/`_size` copied and a
freshly allocated buffer of the same length (or `None`), the live slots
copied one by one. -/
def AA.copy (a : AA) : Option AA :=
  let c : AA :=
    { AA.empty with capacity := a.capacity, size := a.size,
                    d := a.d.map (fun b => List.replicate b.length none) }
  a.copyLoop c 0 a.size

/-- `AmortizedArray.clear` as defined in src/amortizedarray.py (lines
199–201): `self.__init__()`.  (Guarded for Python 2 in the source; under
Python 3 the inherited `MutableSequence.clear` pops one element at a time
and retains `_capacity` and the buffer.) -/
def AA.clearOp (_ : AA) : AA := AA.empty

/-- Collapse an `Except AA AA` to the state the container is left in. -/
def runOkA : Except AA AA → AA
  | .ok a => a
  | .error a => a

/-- `AmortizedArray(seq)` for a tuple of ints. -/
def mkAA (l : List Int) : AA := runOkA (AA.empty.extend (l.map some))

/-- The public operations of the container contract (spec §4/§6).  `index`
and `count` never mutate and are omitted from the transition system; `copy`
is handled by a dedicated reachability rule since it yields a second
container. -/
inductive Op : Type
  | get (i : Int)
  | set (i : Int) (v : V)
  | del (i : Int)
  | app (v : V)
  | ins (i : Int) (v : V)
  | ext (l : List V)
  | rem (v : V)
  | pop (i : Int)
  | srt (key : Option (V → V)) (rev : Bool)
  | rev
  | clr
  | cpy

/-- The state a `SmoothArray` is left in after a public operation, whether
the operation returned normally or raised (Python exceptions do not roll
back partial mutation). -/
def SA.step (s : SA) (o : Op) : SA :=
  match o with
  | .get _ => s
  | .set i v => runOk (s.setItem i v)
  | .del i => runOk (s.delItem i)
  | .app v => runOk (s.append v)
  | .ins i v => runOk (s.insert i v)
  | .ext l => runOk (s.extend l)
  | .rem v => runOk (s.removeOp v)
  | .pop i =>
    match s.popOp i with
    | .ok (t, _) => t
    | .error t => t
  | .srt k r => runOk (s.sortOp k r)
  | .rev => runOk s.reverseOp
  | .clr => s.clearOp
  | .cpy => s

/-- `SmoothArray` states reachable from construction by any sequence of
public operations; a successful `copy()` makes the clone reachable too. -/
inductive SA.Reach : SA → Prop
  | empty : SA.Reach SA.empty
  | step {s : SA} (o : Op) : SA.Reach s → SA.Reach (s.step o)
  | copy {s c : SA} : SA.Reach s → s.copy = some c → SA.Reach c

/-- The reachable `SmoothArray` state with contents `(0, 999, 2, 3)` built by
`SmoothArray((0,1,2,3))` followed by `a[1] = 999`.  After the four appends
the finished migration epoch leaves `_move = _stop = 2` with the stale old
buffer `_data1 = [0, 1]` still in place; the assignment updates slot 1 of
`_data2` only. -/
def staleState : SA := runOk ((mkSA [0, 1, 2, 3]).setItem 1 (some 999))

/-- The reachable `SmoothArray` state built by `SmoothArray((7,))` followed
by `del a[0]`: the cursor adjustment `if i <= self._move` fires although no
migration is in flight, leaving `_move = -1 < _stop = 0`. -/
def negMoveState : SA := runOk (SA.delItem (runOk (SA.append SA.empty (some 7))) 0)

/-- The reachable `SmoothArray` state built by `SmoothArray((0,1,2,3,4))`
followed by `del a[2]`: deleting inside an in-flight migration epoch leaves
logical slot 3 resolving to a never-written `_data2[3]`. -/
def unsetSlotState : SA := runOk (SA.delItem (mkSA [0, 1, 2, 3, 4]) 2)

/-- `true` iff an `AmortizedArray` operation raised. -/
def exErrA : Except AA AA → Bool
  | .error _ => true
  | .ok _ => false

/-- `true` iff a `SmoothArray` operation raised. -/
def exErrS : Except SA SA → Bool
  | .error _ => true
  | .ok _ => false

/-- **C1.**  The claim fails on the code: from the reachable state
`staleState` with logical contents `(0, 999, 2, 3)`, `delete(2)` must yield
`(0, 999, 3)`, but the source's cursor-adjustment rule re-opens the stale
migration range `[1, 2)`, so index 1 resolves to the stale old-buffer value
and the contents after the delete are `(0, 1, 3)`. -/
theorem delete_during_stale_epoch_loses_update :
    SA.Reach staleState ∧
    staleState.iterAll = some [some 0, some 999, some 2, some 3] ∧
    (runOk (staleState.delItem 2)).iterAll = some [some 0, some 1, some 3] ∧
    (runOk (staleState.delItem 2)).iterAll ≠ some [some 0, some 999, some 3] := by
  refine ⟨?_, by decide, by decide, by decide⟩
  exact SA.Reach.step (Op.set 1 (some 999))
    (SA.Reach.step (Op.ext ([0, 1, 2, 3].map some)) SA.Reach.empty)

/-- **C2.**  The claim fails on the code: the state reached by
`SmoothArray((7,))` then `del a[0]` has `_move = -1`, violating
`0 ≤ migrate_cursor`. -/
theorem reachable_migrate_cursor_negative :
    SA.Reach negMoveState ∧ negMoveState.move = -1 ∧ negMoveState.move < 0 := by
  refine ⟨?_, by decide, by decide⟩
  exact SA.Reach.step (Op.del 0) (SA.Reach.step (Op.app (some 7)) SA.Reach.empty)

/-- **C10.**  The claim fails on the code: from the reachable state
`negMoveState` (one element appended, then deleted), `append` raises —
the migration branch is entered with `_move = -1 < _stop = 0` and reads
`_data1`, which is `None`. -/
theorem append_after_delete_crashes :
    SA.Reach negMoveState ∧
    negMoveState.append (some 8) = Except.error negMoveState := by
  refine ⟨?_, rfl⟩
  exact SA.Reach.step (Op.del 0) (SA.Reach.step (Op.app (some 7)) SA.Reach.empty)

/-- **C5.**  The claim fails on the code: the same valid operation sequence
(construct from `(0,1,2,3)`; `a[1] = 999`; `del a[2]`; read `a[1]`) applied
to both containers gives `999` on `AmortizedArray` but the stale `1` on
`SmoothArray`, and the two final logical contents differ. -/
theorem amortized_smooth_divergence :
    (runOkA (AA.delItem (runOkA ((mkAA [0, 1, 2, 3]).setItem 1 (some 999))) 2)).getItem 1
      = some (some 999) ∧
    (runOk (staleState.delItem 2)).getItem 1 = some (some 1) ∧
    (runOkA (AA.delItem (runOkA ((mkAA [0, 1, 2, 3]).setItem 1 (some 999))) 2)).iterAll
      = some [some 0, some 999, some 3] ∧
    (runOk (staleState.delItem 2)).iterAll = some [some 0, some 1, some 3] := by
  decide

/-- **C6 (counterexample).**  The claim fails on the code: from `(3,0,1,2)`,
`sort(reverse=True)` yields `(0,1,2,3)` — the source never passes `reverse`
(nor `key`) on to `sorted` — not the claimed `(3,2,1,0)`. -/
theorem sort_reverse_ignored_cex :
    (runOk ((mkSA [3, 0, 1, 2]).sortOp none true)).iterAll
      = some [some 0, some 1, some 2, some 3] ∧
    (runOk ((mkSA [3, 0, 1, 2]).sortOp none true)).iterAll
      ≠ some [some 3, some 2, some 1, some 0] ∧
    (runOkA ((mkAA [3, 0, 1, 2]).sortOp none true)).iterAll
      = some [some 0, some 1, some 2, some 3] := by
  decide

/-- **C7.**  The claim fails on the code: `insert(10, 5)` on a container
holding `(0,1,2,3)` raises, but only after `self.append(None)` has already
run — both containers are left with length 5 and contents
`(0, 1, 2, 3, None)`, not unchanged. -/
theorem insert_out_of_range_partial_mutation :
    exErrA ((mkAA [0, 1, 2, 3]).insert 10 (some 5)) = true ∧
    (runOkA ((mkAA [0, 1, 2, 3]).insert 10 (some 5))).size = 5 ∧
    (runOkA ((mkAA [0, 1, 2, 3]).insert 10 (some 5))).iterAll
      = some [some 0, some 1, some 2, some 3, none] ∧
    exErrS ((mkSA [0, 1, 2, 3]).insert 10 (some 5)) = true ∧
    (runOk ((mkSA [0, 1, 2, 3]).insert 10 (some 5))).size = 5 ∧
    (runOk ((mkSA [0, 1, 2, 3]).insert 10 (some 5))).iterAll
      = some [some 0, some 1, some 2, some 3, none] := by
  decide

/-- **C8 (counterexample).**  The claim fails on the code: `unsetSlotState`
is reachable (`SmoothArray((0,1,2,3,4))` then `del a[2]`), but `copy()`
raises on it — the copy loop reads the never-written slot `_data2[3]` —
so `copy()` does not return an equal container on every reachable state. -/
theorem copy_fails_on_reachable_state :
    SA.Reach unsetSlotState ∧ unsetSlotState.copy = none := by
  refine ⟨?_, by decide⟩
  exact SA.Reach.step (Op.del 2)
    (SA.Reach.step (Op.ext ([0, 1, 2, 3, 4].map some)) SA.Reach.empty)

/-- **C9.**  `clear()` (as defined in the sources: `self.__init__()`)
resets either container to the freshly-constructed empty state — size 0,
capacity 0, no allocated storage, cursors 0 — so the next `append` behaves
exactly as on a new container. -/
theorem clear_resets_to_empty :
    (∀ s : SA, s.clearOp = SA.empty) ∧ (∀ a : AA, a.clearOp = AA.empty) ∧
    SA.empty.size = 0 ∧ SA.empty.capacity = 0 ∧
    SA.empty.d1 = none ∧ SA.empty.d2 = none ∧
    SA.empty.move = 0 ∧ SA.empty.stop = 0 ∧
    AA.empty.size = 0 ∧ AA.empty.capacity = 0 ∧ AA.empty.d = none ∧
    (∀ (s : SA) (v : V), s.clearOp.append v = SA.empty.append v) ∧
    (∀ (a : AA) (v : V), a.clearOp.append v = AA.empty.append v) :=
  ⟨fun _ => rfl, fun _ => rfl, rfl, rfl, rfl, rfl, rfl, rfl, rfl, rfl, rfl,
   fun _ _ => rfl, fun _ _ => rfl⟩

/-- `SmoothArray.append` instrumented with cost counters: the second
component counts elements moved from `_data1` to `_data2` (the migration
step), the third counts buffer-slot writes performed (the migration write
plus the write of the appended item).  The first component is exactly
`SA.append`. -/
def SA.appendCounted (s : SA) (v : V) : Except SA SA × Nat × Nat :=
  let s1 : SA := s.resizeStage
  if s1.move < s1.stop then
    match bufGet s1.d1 s1.move with
    | none => (.error s1, 0, 0)
    | some v1 =>
      match bufSet s1.d2 s1.move v1 with
      | none => (.error s1, 0, 0)
      | some a =>
        let s2 : SA := { s1 with d2 := some a, move := s1.move + 1 }
        match bufSet s2.d2 (s2.size : Int) v with
        | none => (.error s2, 1, 1)
        | some b => (.ok { s2 with d2 := some b, size := s2.size + 1 }, 1, 2)
  else
    match bufSet s1.d2 (s1.size : Int) v with
    | none => (.error s1, 0, 0)
    | some b => (.ok { s1 with d2 := some b, size := s1.size + 1 }, 0, 1)

/-- **C3.**  Every single `SmoothArray.append` call — on any state, so in
particular on every call of every append sequence, including the call that
triggers a resize and every call after it — moves at most one element from
the old buffer to the new buffer and writes at most two buffer slots in
total; a bulk copy of the old buffer never occurs (the instrumented append
agrees with `SA.append` and its counters are bounded by 1 and 2). -/
theorem append_touches_at_most_two_slots :
    ∀ (s : SA) (v : V),
      (s.appendCounted v).1 = s.append v ∧
      (s.appendCounted v).2.1 ≤ 1 ∧ (s.appendCounted v).2.2 ≤ 2 := by
  intro s v
  unfold SA.appendCounted SA.append SA.finishAppend
  simp only []
  split
  · split
    · exact ⟨rfl, by simp, by simp⟩
    · split
      · exact ⟨rfl, by simp, by simp⟩
      · split
        · exact ⟨rfl, by simp, by simp⟩
        · exact ⟨rfl, by simp, by simp⟩
  · split
    · exact ⟨rfl, by simp, by simp⟩
    · exact ⟨rfl, by simp, by simp⟩

/-- The four bookkeeping numbers of a `SmoothArray` state:
`(_capacity, _size, _move, _stop)`. -/
def SA.nums (s : SA) : Nat × Nat × Int × Int := (s.capacity, s.size, s.move, s.stop)

/-- `__setitem__` never changes the bookkeeping numbers (it writes a single
buffer slot, or raises before mutating). -/
theorem SA.setItem_nums (s : SA) (i : Int) (v : V) :
    (runOk (s.setItem i v)).nums = s.nums := by
  unfold SA.setItem
  simp only []
  repeat' split
  all_goals rfl

/-- A successful `__setitem__` preserves the bookkeeping numbers. -/
theorem SA.setItem_ok_nums {s t : SA} {i : Int} {v : V}
    (h : s.setItem i v = .ok t) : t.nums = s.nums := by
  have h2 := SA.setItem_nums s i v
  rw [h] at h2
  exact h2

/-- A raising `__setitem__` leaves the state unchanged. -/
theorem SA.setItem_error_eq {s t : SA} {i : Int} {v : V}
    (h : s.setItem i v = .error t) : t = s := by
  unfold SA.setItem at h
  simp only [] at h
  repeat' split at h
  all_goals first
    | (injection h with h; exact h.symm)
    | simp at h

/-- The delete shift loop never changes the bookkeeping numbers. -/
theorem SA.shift_nums (fuel : Nat) : ∀ (s : SA) (j st : Int),
    (runOk (SA.shift s j st fuel)).nums = s.nums := by
  induction fuel with
  | zero => intro s j st; rfl
  | succ f ih =>
    intro s j st
    unfold SA.shift
    split
    · split
      · rfl
      · split
        · rename_i t h
          show (runOk (SA.shift t (j + 1) st f)).nums = s.nums
          rw [ih t]
          exact SA.setItem_ok_nums h
        · rename_i t h
          show t.nums = s.nums
          rw [SA.setItem_error_eq h]
    · rfl

/-- The insert shift loop never changes the bookkeeping numbers. -/
theorem SA.insLoop_nums (fuel : Nat) : ∀ (s : SA) (j i : Int),
    (runOk (SA.insLoop s j i fuel)).nums = s.nums := by
  induction fuel with
  | zero => intro s j i; rfl
  | succ f ih =>
    intro s j i
    unfold SA.insLoop
    split
    · split
      · rfl
      · split
        · rename_i t h
          show (runOk (SA.insLoop t (j - 1) i f)).nums = s.nums
          rw [ih t]
          exact SA.setItem_ok_nums h
        · rename_i t h
          show t.nums = s.nums
          rw [SA.setItem_error_eq h]
    · rfl

/-- The sort write-back loop never changes the bookkeeping numbers. -/
theorem SA.writeBack_nums (l : List V) : ∀ (s : SA) (i : Nat),
    (runOk (s.writeBack i l)).nums = s.nums := by
  induction l with
  | nil => intro s i; rfl
  | cons v rest ih =>
    intro s i
    unfold SA.writeBack
    split
    · rename_i t h
      show (runOk (t.writeBack (i + 1) rest)).nums = s.nums
      rw [ih t]
      exact SA.setItem_ok_nums h
    · rename_i t h
      show t.nums = s.nums
      rw [SA.setItem_error_eq h]

/-- The reverse loop never changes the bookkeeping numbers. -/
theorem SA.revLoop_nums (fuel : Nat) : ∀ (s : SA) (i n : Nat),
    (runOk (s.revLoop i n fuel)).nums = s.nums := by
  induction fuel with
  | zero => intro s i n; rfl
  | succ f ih =>
    intro s i n
    unfold SA.revLoop
    split
    · split
      · rfl
      · split
        · rfl
        · split
          · rename_i t h
            show t.nums = s.nums
            rw [SA.setItem_error_eq h]
          · rename_i t h
            split
            · rename_i u h2
              show u.nums = s.nums
              rw [SA.setItem_error_eq h2, SA.setItem_ok_nums h]
            · rename_i u h2
              show (runOk (u.revLoop (i + 1) n f)).nums = s.nums
              rw [ih u, SA.setItem_ok_nums h2, SA.setItem_ok_nums h]
    · rfl

/-- The numeric state invariant of a `SmoothArray` that is actually
maintained by the code: the cursors are ordered, the logical size fits the
capacity, and the outstanding migration debt `_stop - _move` never exceeds
the free room `_capacity - _size`. -/
def SA.Inv (s : SA) : Prop :=
  s.move ≤ s.stop ∧ s.size ≤ s.capacity ∧
  s.stop - s.move ≤ (s.capacity : Int) - (s.size : Int)

/-- The invariant depends only on the bookkeeping numbers. -/
theorem SA.inv_of_nums {s t : SA} (h : t.nums = s.nums) (hs : s.Inv) : t.Inv := by
  unfold SA.nums at h
  injection h with h1 h
  injection h with h2 h
  injection h with h3 h4
  unfold SA.Inv at *
  rw [h1, h2, h3, h4]
  exact hs


/-- `__delitem__` preserves the numeric invariant (also when it raises
part-way through the shift loop, since the numbers are only updated after
the loop). -/
theorem SA.delItem_inv {s : SA} (h : s.Inv) (i : Int) : (runOk (s.delItem i)).Inv := by
  unfold SA.delItem
  simp only []
  generalize (if i < 0 then (s.size : Int) + i else i) = j
  split
  · rename_i hb
    split
    · rename_i t hsh
      have ht : t.nums = s.nums := by
        have h2 := SA.shift_nums s.size s (j + 1) (s.size : Int)
        rw [hsh] at h2
        exact h2
      exact SA.inv_of_nums ht h
    · rename_i t hsh
      have ht : t.nums = s.nums := by
        have h2 := SA.shift_nums s.size s (j + 1) (s.size : Int)
        rw [hsh] at h2
        exact h2
      unfold SA.nums at ht
      injection ht with h1 ht
      injection ht with h2 ht
      injection ht with h3 h4
      unfold SA.Inv at h ⊢
      have hss : 1 ≤ s.size := by omega
      split <;> split <;> (simp only [runOk] at *; simp_all; try omega)
  · exact h

/-- `append` preserves the numeric invariant, on every path: first append,
resize epoch start, migration step, raising paths included. -/
theorem SA.append_inv {s : SA} (h : s.Inv) (v : V) : (runOk (s.append v)).Inv := by
  obtain ⟨h1, h2, h3⟩ := h
  unfold SA.append SA.finishAppend SA.resizeStage
  simp only []
  split <;> split <;>
    repeat' split
  all_goals (unfold SA.Inv; simp only [runOk] at *; simp_all; try omega)

/-- `insert` preserves the numeric invariant (it is `append` plus
number-preserving `get`/`set` traffic). -/
theorem SA.insert_inv {s : SA} (h : s.Inv) (i : Int) (v : V) :
    (runOk (s.insert i v)).Inv := by
  unfold SA.insert
  simp only []
  have hap := SA.append_inv h (v := none)
  split
  · rename_i t hta
    rw [hta] at hap
    exact hap
  · rename_i t hta
    rw [hta] at hap
    split
    · rename_i u hu
      have h2 := SA.insLoop_nums (2 * t.size + 2) t (s.size : Int) i
      rw [hu] at h2
      exact SA.inv_of_nums h2 hap
    · rename_i u hu
      have h2 := SA.insLoop_nums (2 * t.size + 2) t (s.size : Int) i
      rw [hu] at h2
      exact SA.inv_of_nums (SA.setItem_nums u i v) (SA.inv_of_nums h2 hap)

/-- `extend` preserves the numeric invariant. -/
theorem SA.extend_inv (l : List V) : ∀ {s : SA}, s.Inv → (runOk (s.extend l)).Inv := by
  induction l with
  | nil => intro s h; exact h
  | cons v rest ih =>
    intro s h
    unfold SA.extend
    have hap := SA.append_inv h v
    split
    · rename_i t hta
      rw [hta] at hap
      exact ih hap
    · rename_i t hta
      rw [hta] at hap
      exact hap

/-- `remove` preserves the numeric invariant. -/
theorem SA.remove_inv {s : SA} (h : s.Inv) (v : V) : (runOk (s.removeOp v)).Inv := by
  unfold SA.removeOp
  split
  · exact h
  · exact SA.delItem_inv h _

/-- `sort` preserves the numeric invariant. -/
theorem SA.sort_inv {s : SA} (h : s.Inv) (k : Option (V → V)) (r : Bool) :
    (runOk (s.sortOp k r)).Inv := by
  unfold SA.sortOp
  split
  · exact h
  · split
    · exact h
    · exact SA.inv_of_nums (SA.writeBack_nums _ s 0) h

/-- `reverse` preserves the numeric invariant. -/
theorem SA.reverse_inv {s : SA} (h : s.Inv) : (runOk s.reverseOp).Inv :=
  SA.inv_of_nums (SA.revLoop_nums (s.size / 2) s 0 s.size) h

/-- The copy loop only writes buffer slots of the clone: it never changes
the clone's `_capacity` or `_size`. -/
theorem SA.copyLoop_nums (fuel : Nat) : ∀ (src c : SA) (i : Nat) (c2 : SA),
    src.copyLoop c i fuel = some c2 →
    c2.capacity = c.capacity ∧ c2.size = c.size := by
  induction fuel with
  | zero =>
    intro src c i c2 h
    injection h with h
    rw [← h]
    exact ⟨rfl, rfl⟩
  | succ f ih =>
    intro src c i c2 h
    unfold SA.copyLoop at h
    split at h
    · split at h
      · split at h
        · exact absurd h (by simp)
        · split at h
          · exact absurd h (by simp)
          · have h2 := ih src _ (i + 1) c2 h
            simpa using h2
      · split at h
        · split at h
          · exact absurd h (by simp)
          · split at h
            · exact absurd h (by simp)
            · have h2 := ih src _ (i + 1) c2 h
              simpa using h2
        · exact ih src c (i + 1) c2 h
    · injection h with h
      rw [← h]
      exact ⟨rfl, rfl⟩

/-- A successful `copy` reproduces the bookkeeping numbers of the source. -/
theorem SA.copy_nums {s c : SA} (h : s.copy = some c) : c.nums = s.nums := by
  unfold SA.copy at h
  simp only [] at h
  split at h
  · exact absurd h (by simp)
  · rename_i c2 hc2
    injection h with h
    have h2 := SA.copyLoop_nums s.size s _ 0 c2 hc2
    rw [← h]
    unfold SA.nums
    simp only []
    rw [h2.1, h2.2]

/-- Every public operation leaves the numeric invariant intact. -/
theorem SA.step_inv {s : SA} (h : s.Inv) (o : Op) : (s.step o).Inv := by
  cases o with
  | get i => exact h
  | set i v => exact SA.inv_of_nums (SA.setItem_nums s i v) h
  | del i => exact SA.delItem_inv h i
  | app v => exact SA.append_inv h v
  | ins i v => exact SA.insert_inv h i v
  | ext l => exact SA.extend_inv l h
  | rem v => exact SA.remove_inv h v
  | pop i =>
    show (match s.popOp i with | .ok (t, _) => t | .error t => t).Inv
    unfold SA.popOp
    cases hg : s.getItem i with
    | none => exact h
    | some v =>
      have hd := SA.delItem_inv h i
      cases hdel : s.delItem i with
      | ok t => rw [hdel] at hd; exact hd
      | error t => rw [hdel] at hd; exact hd
  | srt k r => exact SA.sort_inv h k r
  | rev => exact SA.reverse_inv h
  | clr => exact ⟨le_refl 0, le_refl 0, le_refl 0⟩
  | cpy => exact h

/-- Every reachable `SmoothArray` state satisfies the numeric invariant. -/
theorem SA.reach_inv {s : SA} (h : SA.Reach s) : s.Inv := by
  induction h with
  | empty => exact ⟨le_refl 0, le_refl 0, le_refl 0⟩
  | step o _ ih => exact SA.step_inv ih o
  | copy _ hc ih => exact SA.inv_of_nums (SA.copy_nums hc) ih

/-- **C4.**  In every reachable `SmoothArray` state, the outstanding
migration debt `_stop - _move` is at most the free room
`_capacity - _size`; consequently whenever `append` finds
`size == capacity > 0` and starts a new epoch, the previous epoch is
already complete (`_move = _stop`), so `_data1 := _data2` never discards a
not-yet-migrated element. -/
theorem reachable_migration_debt_bound :
    ∀ s : SA, SA.Reach s →
      s.stop - s.move ≤ (s.capacity : Int) - (s.size : Int) ∧
      (s.size = s.capacity → 0 < s.capacity → s.move = s.stop) := by
  intro s hs
  have h := SA.reach_inv hs
  obtain ⟨h1, h2, h3⟩ := h
  refine ⟨h3, fun hsz hpos => ?_⟩
  omega

/-- Witness for `reachable_migration_debt_bound` at the reachable state
`SmoothArray((0,1,2))`, whose epoch is mid-migration (`_move = 1 < _stop = 2`). -/
theorem reachable_migration_debt_bound_witness :
    (mkSA [0, 1, 2]).stop - (mkSA [0, 1, 2]).move ≤
      ((mkSA [0, 1, 2]).capacity : Int) - ((mkSA [0, 1, 2]).size : Int) ∧
    ((mkSA [0, 1, 2]).size = (mkSA [0, 1, 2]).capacity →
      0 < (mkSA [0, 1, 2]).capacity → (mkSA [0, 1, 2]).move = (mkSA [0, 1, 2]).stop) :=
  reachable_migration_debt_bound (mkSA [0, 1, 2])
    (SA.Reach.step (Op.ext ([0, 1, 2].map some)) SA.Reach.empty)

/-- Reading back the slot just written by a successful non-negative-index
buffer write. -/
theorem bufGet_bufSet_same {b : Option Buf} {k : Nat} {v : V} {a : Buf}
    (h : bufSet b (k : Int) v = some a) : bufGet (some a) (k : Int) = some v := by
  have hk : ¬((k : Int) < 0) := by omega
  cases b with
  | none => exact absurd h (by simp [bufSet])
  | some arr =>
    unfold bufSet at h
    simp only [if_neg hk] at h
    split at h
    · rename_i hbnd
      injection h with h
      unfold bufGet
      simp only [if_neg hk, ← h, List.length_set]
      rw [if_pos hbnd]
      rw [List.getD_eq_getElem?_getD, List.getElem?_set]
      have hkn : (k : Int).toNat = k := by omega
      rw [hkn]
      simp only [if_pos rfl]
      rw [if_pos (by omega : k < arr.length)]
      rfl
    · exact absurd h (by simp)

/-- A successful non-negative-index buffer write leaves every other slot
unchanged. -/
theorem bufGet_bufSet_ne {b : Option Buf} {k m : Nat} {v : V} {a : Buf}
    (hne : m ≠ k) (h : bufSet b (k : Int) v = some a) :
    bufGet (some a) (m : Int) = bufGet b (m : Int) := by
  have hk : ¬((k : Int) < 0) := by omega
  have hm : ¬((m : Int) < 0) := by omega
  cases b with
  | none => exact absurd h (by simp [bufSet])
  | some arr =>
    unfold bufSet at h
    simp only [if_neg hk] at h
    split at h
    · rename_i hbnd
      injection h with h
      unfold bufGet
      simp only [if_neg hm, ← h, List.length_set]
      split
      · rw [List.getD_eq_getElem?_getD, List.getD_eq_getElem?_getD, List.getElem?_set]
        have hkn : (k : Int).toNat = k := by omega
        have hmn : (m : Int).toNat = m := by omega
        rw [hkn, hmn, if_neg (by omega : ¬(k = m))]
      · rfl
    · exact absurd h (by simp)

/-- A successful `__setitem__` at a non-negative in-range index: the slot
read back through `__getitem__` holds the new value, every other index
reads as before, and the size is unchanged. -/
theorem SA.setItem_ok_parts {s t : SA} {k : Nat} {v : V}
    (h : s.setItem (k : Int) v = .ok t) :
    t.size = s.size ∧ t.getItem (k : Int) = some v ∧
    ∀ (m : Nat), m ≠ k → t.getItem (m : Int) = s.getItem (m : Int) := by
  have hk : ¬((k : Int) < 0) := by omega
  unfold SA.setItem at h
  simp only [if_neg hk] at h
  split at h
  · rename_i hb
    split at h
    · rename_i hbr
      split at h
      · rename_i a ha
        injection h with h
        subst h
        refine ⟨rfl, ?_, ?_⟩
        · unfold SA.getItem
          simp only [if_neg hk]
          rw [if_pos hb, if_pos hbr]
          exact bufGet_bufSet_same ha
        · intro m hm
          have hmn : ¬((m : Int) < 0) := by omega
          unfold SA.getItem
          simp only [if_neg hmn]
          split
          · split
            · exact bufGet_bufSet_ne hm ha
            · rfl
          · rfl
      · exact absurd h (by simp)
    · rename_i hbr
      split at h
      · rename_i a ha
        injection h with h
        subst h
        refine ⟨rfl, ?_, ?_⟩
        · unfold SA.getItem
          simp only [if_neg hk]
          rw [if_pos hb, if_neg hbr]
          exact bufGet_bufSet_same ha
        · intro m hm
          have hmn : ¬((m : Int) < 0) := by omega
          unfold SA.getItem
          simp only [if_neg hmn]
          split
          · split
            · rfl
            · exact bufGet_bufSet_ne hm ha
          · rfl
      · exact absurd h (by simp)
  · exact absurd h (by simp)

/-- The sort write-back loop, when it returns normally, stores the list
elementwise at indices `i, i+1, …` and leaves indices below `i` alone. -/
theorem SA.writeBack_get (l : List V) : ∀ (s t : SA) (i : Nat),
    s.writeBack i l = .ok t →
    (∀ (m : Nat), m < i → t.getItem (m : Int) = s.getItem (m : Int)) ∧
    (∀ (m : Nat) (hm : m < l.length),
      t.getItem ((i + m : Nat) : Int) = some (l.get ⟨m, hm⟩)) := by
  induction l with
  | nil =>
    intro s t i h
    injection h with h
    subst h
    exact ⟨fun m _ => rfl, fun m hm => absurd hm (by simp)⟩
  | cons v rest ih =>
    intro s t i h
    unfold SA.writeBack at h
    split at h
    · rename_i u hu
      obtain ⟨hsz, hget, hother⟩ := SA.setItem_ok_parts hu
      obtain ⟨ih1, ih2⟩ := ih u t (i + 1) h
      constructor
      · intro m hm
        rw [ih1 m (by omega), hother m (by omega)]
      · intro m hm
        cases m with
        | zero =>
          have h2 := ih1 i (by omega)
          simpa using h2.trans hget
        | succ m' =>
          have h2 := ih2 m' (by simpa using hm)
          have he : i + 1 + m' = i + (m' + 1) := by omega
          rw [he] at h2
          simpa using h2
    · exact absurd h (by simp)

/-- Iterating from `k` with matching fuel succeeds and returns the expected
elements when every index in `[k, size)` reads successfully as prescribed. -/
theorem SA.iterFrom_of_get (l : List V) : ∀ (t : SA) (k : Nat),
    k + l.length = t.size →
    (∀ (m : Nat) (hm : m < l.length),
      t.getItem ((k + m : Nat) : Int) = some (l.get ⟨m, hm⟩)) →
    t.iterFrom k l.length = some l := by
  induction l with
  | nil => intro t k _ _; rfl
  | cons v rest ih =>
    intro t k hlen hget
    simp only [List.length_cons] at hlen ⊢
    unfold SA.iterFrom
    rw [if_pos (by omega : k < t.size)]
    have h0 := hget 0 (by simp)
    simp only [Nat.add_zero, List.get_cons_zero] at h0
    have hrest : t.iterFrom (k + 1) rest.length = some rest := by
      apply ih t (k + 1) (by omega)
      intro m hm
      have h2 := hget (m + 1) (by simpa using hm)
      have he : k + (m + 1) = k + 1 + m := by omega
      rw [he] at h2
      simpa using h2
    rw [h0, hrest]
    rfl

/-- A successful iteration with fuel exactly covering `[k, size)` returns
one element per index. -/
theorem SA.iterFrom_length : ∀ (fuel : Nat) (t : SA) (k : Nat) (l : List V),
    k + fuel = t.size → t.iterFrom k fuel = some l → l.length = fuel := by
  intro fuel
  induction fuel with
  | zero =>
    intro t k l _ h
    injection h with h
    rw [← h]
    rfl
  | succ f ih =>
    intro t k l hk h
    unfold SA.iterFrom at h
    rw [if_pos (by omega)] at h
    split at h
    · exact absurd h (by simp)
    · rename_i v hv
      split at h
      · exact absurd h (by simp)
      · rename_i rest hrest
        injection h with h
        rw [← h]
        simp only [List.length_cons]
        rw [ih t (k + 1) rest (by omega) hrest]

/-- `filterMap id` preserves length on a list of defined (all-`some`)
values. -/
theorem filterMap_id_length_of_all : ∀ (l : List V),
    l.all (fun v => v.isSome) = true → (l.filterMap id).length = l.length := by
  intro l
  induction l with
  | nil => intro _; rfl
  | cons x xs ih =>
    intro h
    simp only [List.all_cons, Bool.and_eq_true] at h
    cases x with
    | none => simp at h
    | some a =>
      simp only [List.filterMap_cons, id, List.length_cons]
      rw [ih h.2]

/-- The Python `sorted` model preserves the number of elements. -/
theorem pySorted_length {l l2 : List V} (h : pySorted l = some l2) :
    l2.length = l.length := by
  unfold pySorted at h
  split at h
  · injection h with h
    rw [← h]
  · split at h
    · rename_i hall
      injection h with h
      rw [← h]
      simp only [List.length_map, List.length_insertionSort]
      exact filterMap_id_length_of_all l hall
    · exact absurd h (by simp)

/-- Extract the size component from an equality of bookkeeping numbers. -/
theorem SA.nums_size {s t : SA} (h : t.nums = s.nums) : t.size = s.size := by
  unfold SA.nums at h
  simp only [Prod.mk.injEq] at h
  exact h.2.1

/-- A successful `AmortizedArray.__setitem__` at a non-negative index. -/
theorem AA.setItem_ok_partsA {a b : AA} {k : Nat} {v : V}
    (h : a.setItem (k : Int) v = .ok b) :
    b.size = a.size ∧ b.getItem (k : Int) = some v ∧
    ∀ (m : Nat), m ≠ k → b.getItem (m : Int) = a.getItem (m : Int) := by
  have hk : ¬((k : Int) < 0) := by omega
  unfold AA.setItem at h
  simp only [if_neg hk] at h
  split at h
  · rename_i hb
    split at h
    · rename_i bb hbb
      injection h with h
      subst h
      refine ⟨rfl, ?_, ?_⟩
      · unfold AA.getItem
        simp only [if_neg hk]
        rw [if_pos hb]
        exact bufGet_bufSet_same hbb
      · intro m hm
        have hmn : ¬((m : Int) < 0) := by omega
        unfold AA.getItem
        simp only [if_neg hmn]
        split
        · exact bufGet_bufSet_ne hm hbb
        · rfl
    · exact absurd h (by simp)
  · exact absurd h (by simp)

/-- The `AmortizedArray` sort write-back loop, elementwise. -/
theorem AA.writeBack_getA (l : List V) : ∀ (a b : AA) (i : Nat),
    a.writeBack i l = .ok b →
    b.size = a.size ∧
    (∀ (m : Nat), m < i → b.getItem (m : Int) = a.getItem (m : Int)) ∧
    (∀ (m : Nat) (hm : m < l.length),
      b.getItem ((i + m : Nat) : Int) = some (l.get ⟨m, hm⟩)) := by
  induction l with
  | nil =>
    intro a b i h
    injection h with h
    subst h
    exact ⟨rfl, fun m _ => rfl, fun m hm => absurd hm (by simp)⟩
  | cons v rest ih =>
    intro a b i h
    unfold AA.writeBack at h
    split at h
    · rename_i u hu
      obtain ⟨hsz, hget, hother⟩ := AA.setItem_ok_partsA hu
      obtain ⟨ihz, ih1, ih2⟩ := ih u b (i + 1) h
      refine ⟨ihz.trans hsz, ?_, ?_⟩
      · intro m hm
        rw [ih1 m (by omega), hother m (by omega)]
      · intro m hm
        cases m with
        | zero =>
          have h2 := ih1 i (by omega)
          simpa using h2.trans hget
        | succ m' =>
          have h2 := ih2 m' (by simpa using hm)
          have he : i + 1 + m' = i + (m' + 1) := by omega
          rw [he] at h2
          simpa using h2
    · exact absurd h (by simp)

/-- `AmortizedArray` iteration from `k`, reconstructed from pointwise
reads. -/
theorem AA.iterFrom_of_getA (l : List V) : ∀ (b : AA) (k : Nat),
    k + l.length = b.size →
    (∀ (m : Nat) (hm : m < l.length),
      b.getItem ((k + m : Nat) : Int) = some (l.get ⟨m, hm⟩)) →
    b.iterFrom k l.length = some l := by
  induction l with
  | nil => intro b k _ _; rfl
  | cons v rest ih =>
    intro b k hlen hget
    simp only [List.length_cons] at hlen ⊢
    unfold AA.iterFrom
    rw [if_pos (by omega : k < b.size)]
    have h0 := hget 0 (by simp)
    simp only [Nat.add_zero] at h0
    have hrest : b.iterFrom (k + 1) rest.length = some rest := by
      apply ih b (k + 1) (by omega)
      intro m hm
      have h2 := hget (m + 1) (by simpa using hm)
      have he : k + (m + 1) = k + 1 + m := by omega
      rw [he] at h2
      simpa using h2
    rw [h0, hrest]
    rfl

/-- A successful `AmortizedArray` iteration with exact fuel returns one
element per index. -/
theorem AA.iterFrom_lengthA : ∀ (fuel : Nat) (b : AA) (k : Nat) (l : List V),
    k + fuel = b.size → b.iterFrom k fuel = some l → l.length = fuel := by
  intro fuel
  induction fuel with
  | zero =>
    intro b k l _ h
    injection h with h
    rw [← h]
    rfl
  | succ f ih =>
    intro b k l hk h
    unfold AA.iterFrom at h
    rw [if_pos (by omega)] at h
    split at h
    · exact absurd h (by simp)
    · rename_i v hv
      split at h
      · exact absurd h (by simp)
      · rename_i rest hrest
        injection h with h
        rw [← h]
        simp only [List.length_cons]
        rw [ih b (k + 1) rest (by omega) hrest]

/-- **C6 (amended).**  `sort(key, reverse)` of either container ignores
both of its arguments — the source calls `sorted(self)` with neither — and,
whenever it returns normally, rewrites the contents as the ascending
natural-order sorted permutation of the previous contents (so from
`(3,0,1,2)`, `sort(reverse=True)` yields `(0,1,2,3)`, not `(3,2,1,0)`). -/
theorem sort_ignores_key_reverse :
    (∀ (s : SA) (k : Option (V → V)) (r : Bool), s.sortOp k r = s.sortOp none false) ∧
    (∀ (a : AA) (k : Option (V → V)) (r : Bool), a.sortOp k r = a.sortOp none false) ∧
    (∀ (s t : SA) (k : Option (V → V)) (r : Bool) (l : List V),
      s.iterAll = some l → s.sortOp k r = .ok t → t.iterAll = pySorted l) ∧
    (∀ (a b : AA) (k : Option (V → V)) (r : Bool) (l : List V),
      a.iterAll = some l → a.sortOp k r = .ok b → b.iterAll = pySorted l) := by
  refine ⟨fun _ _ _ => rfl, fun _ _ _ => rfl, ?_, ?_⟩
  · intro s t k r l hl hs
    unfold SA.sortOp at hs
    simp only [hl] at hs
    cases hp : pySorted l with
    | none =>
      simp only [hp] at hs
      exact absurd hs (by simp)
    | some l2 =>
      simp only [hp] at hs
      have hlen : l.length = s.size := SA.iterFrom_length s.size s 0 l (by omega) hl
      have hl2 : l2.length = l.length := pySorted_length hp
      have hsz : t.size = s.size := by
        have h2 := SA.writeBack_nums l2 s 0
        rw [hs] at h2
        exact SA.nums_size h2
      have hw := (SA.writeBack_get l2 s t 0 hs).2
      have hiter : t.iterFrom 0 l2.length = some l2 := by
        apply SA.iterFrom_of_get l2 t 0 (by omega)
        intro m hm
        simpa using hw m hm
      show t.iterFrom 0 t.size = some l2
      rw [show t.size = l2.length by omega]
      exact hiter
  · intro a b k r l hl hs
    unfold AA.sortOp at hs
    simp only [hl] at hs
    cases hp : pySorted l with
    | none =>
      simp only [hp] at hs
      exact absurd hs (by simp)
    | some l2 =>
      simp only [hp] at hs
      have hlen : l.length = a.size := AA.iterFrom_lengthA a.size a 0 l (by omega) hl
      have hl2 : l2.length = l.length := pySorted_length hp
      obtain ⟨hsz, _, hw⟩ := AA.writeBack_getA l2 a b 0 hs
      have hiter : b.iterFrom 0 l2.length = some l2 := by
        apply AA.iterFrom_of_getA l2 b 0 (by omega)
        intro m hm
        simpa using hw m hm
      show b.iterFrom 0 b.size = some l2
      rw [show b.size = l2.length by omega]
      exact hiter

/-- Witness for `sort_ignores_key_reverse` at the spec's Scenario 4 input
`(3,0,1,2)` with `reverse=True`. -/
theorem sort_ignores_key_reverse_witness :
    (runOk ((mkSA [3, 0, 1, 2]).sortOp none true)).iterAll
      = pySorted [some 3, some 0, some 1, some 2] :=
  sort_ignores_key_reverse.2.2.1 (mkSA [3, 0, 1, 2])
    (runOk ((mkSA [3, 0, 1, 2]).sortOp none true)) none true
    [some 3, some 0, some 1, some 2] (by decide) rfl

/-! ## A store-based model for the deep-copy independence claim

The pure model above carries each container's buffers inside its state, so
it cannot express the aliasing question behind `copy()`'s independence
guarantee ("mutating the copy never affects the original").  The following
model embeds the same source code a second time over an explicit store: a
`Heap` of allocated ctypes buffers addressed by allocation index, with
`_data1`/`_data2` holding buffer addresses.  Buffer writes mutate the store
in place, exactly as Python mutates the shared buffer objects, so two
states alias if and only if they hold the same address. -/

/-- The store of allocated ctypes buffers; a buffer is addressed by its
allocation index. -/
abbrev Heap := List Buf

/-- Read slot `i` of the buffer addressed by `b` (`none` = Python `None`). -/
def hGet (h : Heap) (b : Option Nat) (i : Int) : Option V :=
  match b with
  | none => none
  | some id => bufGet h[id]? i

/-- Write slot `i` of the buffer addressed by `b`, in place. -/
def hSet (h : Heap) (b : Option Nat) (i : Int) (v : V) : Option Heap :=
  match b with
  | none => none
  | some id =>
    match h[id]? with
    | none => none
    | some arr =>
      match bufSet (some arr) i v with
      | none => none
      | some arr2 => some (h.set id arr2)

/-- Allocate a fresh buffer of `n` unset slots; its address is the previous
store length. -/
def hAlloc (h : Heap) (n : Nat) : Heap × Nat :=
  (h ++ [List.replicate n none], h.length)

/-- `SmoothArray` state over the store: as `SA` but with buffer addresses
instead of inline buffers. -/
structure SH where
  capacity : Nat
  size : Nat
  d1 : Option Nat
  d2 : Option Nat
  move : Int
  stop : Int
deriving DecidableEq

/-- Fresh `SmoothArray()` (store untouched). -/
def SH.empty : SH :=
  { capacity := 0, size := 0, d1 := none, d2 := none, move := 0, stop := 0 }

/-- `__getitem__` over the store (same source lines as `SA.getItem`). -/
def SH.getItem (h : Heap) (s : SH) (i : Int) : Option V :=
  let j : Int := if i < 0 then (s.size : Int) + i else i
  if 0 ≤ j ∧ j < (s.size : Int) then
    if s.move ≤ j ∧ j < s.stop then hGet h s.d1 j else hGet h s.d2 j
  else none

/-- `__setitem__` over the store (same source lines as `SA.setItem`). -/
def SH.setItem (h : Heap) (s : SH) (i : Int) (v : V) :
    Except (Heap × SH) (Heap × SH) :=
  let j : Int := if i < 0 then (s.size : Int) + i else i
  if 0 ≤ j ∧ j < (s.size : Int) then
    if s.move ≤ j ∧ j < s.stop then
      match hSet h s.d1 j v with
      | some h2 => .ok (h2, s)
      | none => .error (h, s)
    else
      match hSet h s.d2 j v with
      | some h2 => .ok (h2, s)
      | none => .error (h, s)
  else .error (h, s)

/-- The `__delitem__` shift loop over the store. -/
def SH.shift (h : Heap) (s : SH) (j : Int) (stop : Int) (fuel : Nat) :
    Except (Heap × SH) (Heap × SH) :=
  match fuel with
  | 0 => .ok (h, s)
  | fuel + 1 =>
    if j < stop then
      match SH.getItem h s j with
      | none => .error (h, s)
      | some v =>
        match SH.setItem h s (j - 1) v with
        | .ok (h2, t) => SH.shift h2 t (j + 1) stop fuel
        | .error p => .error p
    else .ok (h, s)

/-- `__delitem__` over the store (same source lines as `SA.delItem`). -/
def SH.delItem (h : Heap) (s : SH) (i : Int) : Except (Heap × SH) (Heap × SH) :=
  let j : Int := if i < 0 then (s.size : Int) + i else i
  if 0 ≤ j ∧ j < (s.size : Int) then
    match SH.shift h s (j + 1) (s.size : Int) s.size with
    | .error p => .error p
    | .ok (h2, t) =>
      let t1 : SH := { t with size := t.size - 1 }
      let t2 : SH := if j ≤ t1.move then { t1 with move := t1.move - 1 } else t1
      let t3 : SH := if j < t2.stop then { t2 with stop := t2.stop - 1 } else t2
      .ok (h2, t3)
  else .error (h, s)

/-- The tail of `append` over the store. -/
def SH.finishAppend (h : Heap) (s : SH) (v : V) : Except (Heap × SH) (Heap × SH) :=
  match hSet h s.d2 (s.size : Int) v with
  | none => .error (h, s)
  | some h2 => .ok (h2, { s with size := s.size + 1 })

/-- The head of `append` over the store (same source lines as
`SA.resizeStage`; `_data1 := _data2` copies the address, not the buffer). -/
def SH.resizeStage (h : Heap) (s : SH) : Heap × SH :=
  if s.capacity = 0 then
    ((hAlloc h 1).1, { s with capacity := 1, d2 := some (hAlloc h 1).2 })
  else if s.size = s.capacity then
    ((hAlloc h (s.capacity * 2)).1,
      { s with move := 0, stop := (s.capacity : Int), capacity := s.capacity * 2,
               d1 := s.d2, d2 := some (hAlloc h (s.capacity * 2)).2 })
  else (h, s)

/-- `append` over the store (same source lines as `SA.append`). -/
def SH.append (h : Heap) (s : SH) (v : V) : Except (Heap × SH) (Heap × SH) :=
  let p := SH.resizeStage h s
  if p.2.move < p.2.stop then
    match hGet p.1 p.2.d1 p.2.move with
    | none => .error p
    | some v1 =>
      match hSet p.1 p.2.d2 p.2.move v1 with
      | none => .error p
      | some h2 => SH.finishAppend h2 { p.2 with move := p.2.move + 1 } v
  else SH.finishAppend p.1 p.2 v

/-- The `insert` shift loop over the store. -/
def SH.insLoop (h : Heap) (s : SH) (j : Int) (i : Int) (fuel : Nat) :
    Except (Heap × SH) (Heap × SH) :=
  match fuel with
  | 0 => .ok (h, s)
  | fuel + 1 =>
    if i < j then
      match SH.getItem h s (j - 1) with
      | none => .error (h, s)
      | some v =>
        match SH.setItem h s j v with
        | .ok (h2, t) => SH.insLoop h2 t (j - 1) i fuel
        | .error p => .error p
    else .ok (h, s)

/-- `insert` over the store (same source lines as `SA.insert`). -/
def SH.insert (h : Heap) (s : SH) (i : Int) (v : V) :
    Except (Heap × SH) (Heap × SH) :=
  let j : Int := (s.size : Int)
  match SH.append h s none with
  | .error p => .error p
  | .ok (h2, t) =>
    match SH.insLoop h2 t j i (2 * t.size + 2) with
    | .error p => .error p
    | .ok (h3, u) => SH.setItem h3 u i v

/-- Iteration over the store. -/
def SH.iterFrom (h : Heap) (s : SH) (k : Nat) (fuel : Nat) : Option (List V) :=
  match fuel with
  | 0 => some []
  | fuel + 1 =>
    if k < s.size then
      match SH.getItem h s (k : Int) with
      | none => none
      | some v =>
        match SH.iterFrom h s (k + 1) fuel with
        | none => none
        | some l => some (v :: l)
    else some []

/-- The observable contents of a store-based `SmoothArray`. -/
def SH.iterAll (h : Heap) (s : SH) : Option (List V) := SH.iterFrom h s 0 s.size

/-- The `sort` write-back loop over the store. -/
def SH.writeBack (h : Heap) (s : SH) (i : Nat) (l : List V) :
    Except (Heap × SH) (Heap × SH) :=
  match l with
  | [] => .ok (h, s)
  | v :: rest =>
    match SH.setItem h s (i : Int) v with
    | .ok (h2, t) => SH.writeBack h2 t (i + 1) rest
    | .error p => .error p

/-- `sort` over the store (same source lines as `SA.sortOp`). -/
def SH.sortOp (h : Heap) (s : SH) (key : Option (V → V)) (rev : Bool) :
    Except (Heap × SH) (Heap × SH) :=
  match SH.iterAll h s with
  | none => .error (h, s)
  | some l =>
    match pySorted l with
    | none => .error (h, s)
    | some l2 => SH.writeBack h s 0 l2

/-- The `reverse` loop over the store. -/
def SH.revLoop (h : Heap) (s : SH) (i : Nat) (n : Nat) (fuel : Nat) :
    Except (Heap × SH) (Heap × SH) :=
  match fuel with
  | 0 => .ok (h, s)
  | fuel + 1 =>
    if i < n / 2 then
      match SH.getItem h s ((n : Int) - i - 1) with
      | none => .error (h, s)
      | some a =>
        match SH.getItem h s (i : Int) with
        | none => .error (h, s)
        | some b =>
          match SH.setItem h s (i : Int) a with
          | .error p => .error p
          | .ok (h2, t) =>
            match SH.setItem h2 t ((n : Int) - i - 1) b with
            | .error p => .error p
            | .ok (h3, u) => SH.revLoop h3 u (i + 1) n fuel
    else .ok (h, s)

/-- `reverse` over the store. -/
def SH.reverseOp (h : Heap) (s : SH) : Except (Heap × SH) (Heap × SH) :=
  SH.revLoop h s 0 s.size (s.size / 2)

/-- The `index` scan over the store. -/
def SH.idxGo (h : Heap) (s : SH) (v : V) (k : Nat) (fuel : Nat) : Option Nat :=
  match fuel with
  | 0 => none
  | fuel + 1 =>
    if k < s.size then
      match SH.getItem h s (k : Int) with
      | none => none
      | some w => if w = v then some k else SH.idxGo h s v (k + 1) fuel
    else none

/-- `index` over the store. -/
def SH.indexOf (h : Heap) (s : SH) (v : V) : Option Nat := SH.idxGo h s v 0 s.size

/-- `remove` over the store. -/
def SH.removeOp (h : Heap) (s : SH) (v : V) : Except (Heap × SH) (Heap × SH) :=
  match SH.indexOf h s v with
  | none => .error (h, s)
  | some k => SH.delItem h s (k : Int)

/-- `pop` over the store. -/
def SH.popOp (h : Heap) (s : SH) (i : Int) :
    Except (Heap × SH) ((Heap × SH) × V) :=
  match SH.getItem h s i with
  | none => .error (h, s)
  | some v =>
    match SH.delItem h s i with
    | .ok p => .ok (p, v)
    | .error p => .error p

/-- `extend` over the store. -/
def SH.extend (h : Heap) (s : SH) (l : List V) : Except (Heap × SH) (Heap × SH) :=
  match l with
  | [] => .ok (h, s)
  | v :: rest =>
    match SH.append h s v with
    | .ok (h2, t) => SH.extend h2 t rest
    | .error p => .error p

/-- `c._dataX = (len(self._dataX)*ctypes.py_object)() if self._dataX is not
None else None`: allocate a clone buffer of the same length, or keep `None`. -/
def SH.allocLike (h : Heap) (b : Option Nat) : Option (Heap × Option Nat) :=
  match b with
  | none => some (h, none)
  | some id =>
    match h[id]? with
    | none => none
    | some arr => some ((hAlloc h arr.length).1, some (hAlloc h arr.length).2)

/-- The element-copy loop of `copy` over the store (same source lines as
`SA.copyLoop`); on a raising read the exception propagates with the store
as mutated so far. -/
def SH.copyLoop (h : Heap) (src c : SH) (i : Nat) (fuel : Nat) : Except Heap Heap :=
  match fuel with
  | 0 => .ok h
  | fuel + 1 =>
    if i < src.size then
      if (src.move ≤ (i : Int) ∧ (i : Int) < src.stop) ∧ src.d1.isSome then
        match hGet h src.d1 (i : Int) with
        | none => .error h
        | some v =>
          match hSet h c.d1 (i : Int) v with
          | none => .error h
          | some h2 => SH.copyLoop h2 src c (i + 1) fuel
      else if src.d2.isSome then
        match hGet h src.d2 (i : Int) with
        | none => .error h
        | some v =>
          match hSet h c.d2 (i : Int) v with
          | none => .error h
          | some h2 => SH.copyLoop h2 src c (i + 1) fuel
      else SH.copyLoop h src c (i + 1) fuel
    else .ok h

/-- `copy` over the store (same source lines as `SA.copy`): fresh clone
record, fresh buffers of the same lengths, per-slot copy of the live range,
cursors copied last.  On failure the exception propagates; the partially
written clone buffers stay allocated but unreachable. -/
def SH.copy (h : Heap) (s : SH) : Except Heap (Heap × SH) :=
  match SH.allocLike h s.d1 with
  | none => .error h
  | some (h1, b1) =>
    match SH.allocLike h1 s.d2 with
    | none => .error h1
    | some (h2, b2) =>
      let c : SH :=
        { SH.empty with capacity := s.capacity, size := s.size, d1 := b1, d2 := b2 }
      match SH.copyLoop h2 s c 0 s.size with
      | .error h3 => .error h3
      | .ok h3 => .ok (h3, { c with move := s.move, stop := s.stop })

/-- `clear` over the store (the source-defined `self.__init__()`). -/
def SH.clearOp (h : Heap) (_ : SH) : Heap × SH := (h, SH.empty)

/-- Collapse a store-level operation outcome to the store and state it
leaves behind. -/
def runH : Except (Heap × SH) (Heap × SH) → Heap × SH
  | .ok p => p
  | .error p => p

/-- The store and state a store-based `SmoothArray` is left in after a
public operation (the clone built by a `copy` operation is not tracked —
`run` follows the original container). -/
def SH.run (h : Heap) (s : SH) (o : Op) : Heap × SH :=
  match o with
  | .get _ => (h, s)
  | .set i v => runH (SH.setItem h s i v)
  | .del i => runH (SH.delItem h s i)
  | .app v => runH (SH.append h s v)
  | .ins i v => runH (SH.insert h s i v)
  | .ext l => runH (SH.extend h s l)
  | .rem v => runH (SH.removeOp h s v)
  | .pop i =>
    match SH.popOp h s i with
    | .ok (p, _) => p
    | .error p => p
  | .srt k r => runH (SH.sortOp h s k r)
  | .rev => runH (SH.reverseOp h s)
  | .clr => SH.clearOp h s
  | .cpy =>
    match SH.copy h s with
    | .ok (h2, _) => (h2, s)
    | .error h2 => (h2, s)

/-- The buffer addresses held by a store-based `SmoothArray`. -/
def SH.foot (s : SH) (id : Nat) : Prop := s.d1 = some id ∨ s.d2 = some id

/-- `Keeps F h h2`: the store evolved from `h` to `h2` without touching any
already-allocated cell outside the protected address set `F` (allocation
may extend it). -/
def Keeps (F : Nat → Prop) (h h2 : Heap) : Prop :=
  h.length ≤ h2.length ∧ ∀ id, id < h.length → ¬ F id → h2[id]? = h[id]?

/-- `FootSub F G n`: the address set `G` is contained in `F` together with
addresses allocated at or after store length `n`. -/
def FootSub (F G : Nat → Prop) (n : Nat) : Prop := ∀ id, G id → F id ∨ n ≤ id

theorem keeps_refl (F : Nat → Prop) (h : Heap) : Keeps F h h :=
  ⟨le_refl _, fun _ _ _ => rfl⟩

theorem footsub_refl (F : Nat → Prop) (n : Nat) : FootSub F F n :=
  fun _ hid => Or.inl hid

theorem keeps_trans {F G : Nat → Prop} {h h1 h2 : Heap}
    (k1 : Keeps F h h1) (f1 : FootSub F G h.length) (k2 : Keeps G h1 h2) :
    Keeps F h h2 := by
  refine ⟨le_trans k1.1 k2.1, fun id hid hF => ?_⟩
  have hG : ¬ G id := by
    intro hid2
    rcases f1 id hid2 with h3 | h3
    · exact hF h3
    · omega
  rw [k2.2 id (lt_of_lt_of_le hid k1.1) hG, k1.2 id hid hF]

theorem footsub_trans {F G K : Nat → Prop} {n m : Nat} (hnm : n ≤ m)
    (f1 : FootSub F G n) (f2 : FootSub G K m) : FootSub F K n := by
  intro id hid
  rcases f2 id hid with h3 | h3
  · exact f1 id h3
  · exact Or.inr (by omega)

/-- A successful in-place buffer write only changes the written address. -/
theorem hSet_cells {h h2 : Heap} {b : Option Nat} {i : Int} {v : V}
    (hw : hSet h b i v = some h2) :
    h2.length = h.length ∧
    ∃ id, b = some id ∧ ∀ id2, id2 ≠ id → h2[id2]? = h[id2]? := by
  unfold hSet at hw
  split at hw
  · exact absurd hw (by simp)
  · rename_i id
    split at hw
    · exact absurd hw (by simp)
    · rename_i arr harr
      split at hw
      · exact absurd hw (by simp)
      · rename_i arr2 harr2
        injection hw with hw
        refine ⟨by rw [← hw]; exact List.length_set h id arr2, id, rfl, ?_⟩
        intro id2 hne
        rw [← hw]
        exact List.getElem?_set_ne (fun he => hne he.symm)

/-- A successful in-place write to an address inside `F` keeps everything
outside `F`. -/
theorem hSet_keeps {F : Nat → Prop} {h h2 : Heap} {b : Option Nat} {i : Int}
    {v : V} (hb : ∀ id, b = some id → F id) (hw : hSet h b i v = some h2) :
    Keeps F h h2 := by
  obtain ⟨hlen, id, hbid, hcells⟩ := hSet_cells hw
  refine ⟨le_of_eq hlen.symm, fun id2 _ hF => ?_⟩
  exact hcells id2 (fun he => hF (he ▸ hb id hbid))

/-- Allocation keeps every existing cell. -/
theorem alloc_keeps (F : Nat → Prop) (h : Heap) (arr : Buf) :
    Keeps F h (h ++ [arr]) := by
  refine ⟨by simp, fun id hid _ => ?_⟩
  exact List.getElem?_append_left hid

/-- `__setitem__` over the store: keeps everything outside the container's
own footprint and returns the state unchanged. -/
theorem SH.setItem_frame (h : Heap) (s : SH) (i : Int) (v : V) :
    Keeps s.foot h (runH (SH.setItem h s i v)).1 ∧
    (runH (SH.setItem h s i v)).2 = s := by
  unfold SH.setItem
  simp only []
  generalize (if i < 0 then (s.size : Int) + i else i) = j
  split
  · split
    · split
      · rename_i h2 hw
        exact ⟨hSet_keeps (fun id hid => Or.inl hid) hw, rfl⟩
      · exact ⟨keeps_refl _ _, rfl⟩
    · split
      · rename_i h2 hw
        exact ⟨hSet_keeps (fun id hid => Or.inr hid) hw, rfl⟩
      · exact ⟨keeps_refl _ _, rfl⟩
  · exact ⟨keeps_refl _ _, rfl⟩

/-- The delete shift loop over the store: keeps everything outside the
footprint and returns the state unchanged. -/
theorem SH.shift_frame (fuel : Nat) : ∀ (h : Heap) (s : SH) (j st : Int),
    Keeps s.foot h (runH (SH.shift h s j st fuel)).1 ∧
    (runH (SH.shift h s j st fuel)).2 = s := by
  induction fuel with
  | zero => intro h s j st; exact ⟨keeps_refl _ _, rfl⟩
  | succ f ih =>
    intro h s j st
    unfold SH.shift
    split
    · split
      · exact ⟨keeps_refl _ _, rfl⟩
      · rename_i v hv
        have hset := SH.setItem_frame h s (j - 1) v
        split
        · rename_i h2 t hst
          rw [hst] at hset
          obtain ⟨hk, hts⟩ := hset
          obtain ⟨hk2, hts2⟩ := ih h2 t (j + 1) st
          subst hts
          exact ⟨keeps_trans hk (footsub_refl _ _) hk2, hts2⟩
        · rename_i p hst
          rw [hst] at hset
          exact hset
    · exact ⟨keeps_refl _ _, rfl⟩

/-- `__delitem__` over the store: keeps everything outside the footprint;
the resulting state holds the same buffer addresses. -/
theorem SH.delItem_frame (h : Heap) (s : SH) (i : Int) :
    Keeps s.foot h (runH (SH.delItem h s i)).1 ∧
    FootSub s.foot (runH (SH.delItem h s i)).2.foot h.length := by
  unfold SH.delItem
  simp only []
  generalize (if i < 0 then (s.size : Int) + i else i) = j
  split
  · have hsh := SH.shift_frame s.size h s (j + 1) (s.size : Int)
    split
    · rename_i p hp
      rw [hp] at hsh
      exact ⟨hsh.1, hsh.2 ▸ footsub_refl _ _⟩
    · rename_i h2 t hp
      rw [hp] at hsh
      obtain ⟨hk, hts⟩ := hsh
      subst hts
      refine ⟨hk, ?_⟩
      intro id hid
      refine Or.inl ?_
      unfold SH.foot at hid ⊢
      simp only [runH] at hid ⊢
      split at hid <;> split at hid <;> simp_all [runH]
  · exact ⟨keeps_refl _ _, footsub_refl _ _⟩

/-- A state equal to another has the same footprint. -/
theorem footsub_of_eq {s t : SH} (h : t = s) (n : Nat) : FootSub s.foot t.foot n :=
  fun id hid => Or.inl (h ▸ hid)

/-- The tail of `append` over the store: a single write into `_data2`. -/
theorem SH.finishAppend_frame (h : Heap) (s : SH) (v : V) :
    Keeps s.foot h (runH (SH.finishAppend h s v)).1 ∧
    FootSub s.foot (runH (SH.finishAppend h s v)).2.foot h.length := by
  unfold SH.finishAppend
  split
  · exact ⟨keeps_refl _ _, footsub_refl _ _⟩
  · rename_i h2 hw
    refine ⟨hSet_keeps (fun id hid => Or.inr hid) hw, ?_⟩
    intro id hid
    exact Or.inl hid

/-- The resize stage over the store only allocates; the new footprint is
the old one plus a fresh address. -/
theorem SH.resizeStage_frame (h : Heap) (s : SH) :
    Keeps s.foot h (SH.resizeStage h s).1 ∧
    FootSub s.foot (SH.resizeStage h s).2.foot h.length := by
  unfold SH.resizeStage
  split
  · refine ⟨alloc_keeps _ _ _, ?_⟩
    intro id hid
    rcases hid with h1 | h2
    · exact Or.inl (Or.inl h1)
    · injection h2 with h2
      exact Or.inr (by simp only [hAlloc] at h2; omega)
  · split
    · refine ⟨alloc_keeps _ _ _, ?_⟩
      intro id hid
      rcases hid with h1 | h2
      · exact Or.inl (Or.inr h1)
      · injection h2 with h2
        exact Or.inr (by simp only [hAlloc] at h2; omega)
    · exact ⟨keeps_refl _ _, footsub_refl _ _⟩

/-- `append` over the store keeps everything outside the footprint; the new
footprint adds only fresh addresses. -/
theorem SH.append_frame (h : Heap) (s : SH) (v : V) :
    Keeps s.foot h (runH (SH.append h s v)).1 ∧
    FootSub s.foot (runH (SH.append h s v)).2.foot h.length := by
  unfold SH.append
  simp only []
  obtain ⟨hk1, hf1⟩ := SH.resizeStage_frame h s
  have hlen1 : h.length ≤ (SH.resizeStage h s).1.length := hk1.1
  split
  · split
    · exact ⟨hk1, hf1⟩
    · rename_i v1 hv1
      split
      · exact ⟨hk1, hf1⟩
      · rename_i h2 hw
        have hk2 : Keeps (SH.resizeStage h s).2.foot (SH.resizeStage h s).1 h2 :=
          hSet_keeps (fun id hid => Or.inr hid) hw
        have hka : Keeps s.foot h h2 := keeps_trans hk1 hf1 hk2
        have hfin := SH.finishAppend_frame h2
          { (SH.resizeStage h s).2 with move := (SH.resizeStage h s).2.move + 1 } v
        refine ⟨keeps_trans hka (fun id hid => hf1 id hid) hfin.1, ?_⟩
        have hlen2 : h.length ≤ h2.length := hka.1
        exact footsub_trans hlen2 (fun id hid => hf1 id hid) hfin.2
  · have hfin := SH.finishAppend_frame (SH.resizeStage h s).1 (SH.resizeStage h s).2 v
    exact ⟨keeps_trans hk1 hf1 hfin.1, footsub_trans hlen1 hf1 hfin.2⟩

/-- The insert shift loop over the store. -/
theorem SH.insLoop_frame (fuel : Nat) : ∀ (h : Heap) (s : SH) (j i : Int),
    Keeps s.foot h (runH (SH.insLoop h s j i fuel)).1 ∧
    (runH (SH.insLoop h s j i fuel)).2 = s := by
  induction fuel with
  | zero => intro h s j i; exact ⟨keeps_refl _ _, rfl⟩
  | succ f ih =>
    intro h s j i
    unfold SH.insLoop
    split
    · split
      · exact ⟨keeps_refl _ _, rfl⟩
      · rename_i v hv
        have hset := SH.setItem_frame h s j v
        split
        · rename_i h2 t hst
          rw [hst] at hset
          obtain ⟨hk, hts⟩ := hset
          obtain ⟨hk2, hts2⟩ := ih h2 t (j - 1) i
          subst hts
          exact ⟨keeps_trans hk (footsub_refl _ _) hk2, hts2⟩
        · rename_i p hst
          rw [hst] at hset
          exact hset
    · exact ⟨keeps_refl _ _, rfl⟩

/-- `insert` over the store. -/
theorem SH.insert_frame (h : Heap) (s : SH) (i : Int) (v : V) :
    Keeps s.foot h (runH (SH.insert h s i v)).1 ∧
    FootSub s.foot (runH (SH.insert h s i v)).2.foot h.length := by
  unfold SH.insert
  simp only []
  have hap := SH.append_frame h s none
  split
  · rename_i p hp
    rw [hp] at hap
    exact hap
  · rename_i h2 t hp
    rw [hp] at hap
    obtain ⟨hka, hfa⟩ := hap
    have hlen2 : h.length ≤ h2.length := hka.1
    have hloop := SH.insLoop_frame (2 * t.size + 2) h2 t (s.size : Int) i
    split
    · rename_i p2 hp2
      rw [hp2] at hloop
      exact ⟨keeps_trans hka hfa hloop.1, footsub_trans hlen2 hfa (footsub_of_eq hloop.2 _)⟩
    · rename_i h3 u hp2
      rw [hp2] at hloop
      obtain ⟨hkl, hul⟩ := hloop
      subst hul
      have hset := SH.setItem_frame h3 u i v
      have hkb : Keeps s.foot h h3 := keeps_trans hka hfa hkl
      have hlen3 : h.length ≤ h3.length := hkb.1
      refine ⟨keeps_trans hkb hfa hset.1, ?_⟩
      exact footsub_trans hlen3 hfa (footsub_of_eq hset.2 _)

/-- `extend` over the store. -/
theorem SH.extend_frame (l : List V) : ∀ (h : Heap) (s : SH),
    Keeps s.foot h (runH (SH.extend h s l)).1 ∧
    FootSub s.foot (runH (SH.extend h s l)).2.foot h.length := by
  induction l with
  | nil => intro h s; exact ⟨keeps_refl _ _, footsub_refl _ _⟩
  | cons v rest ih =>
    intro h s
    unfold SH.extend
    have hap := SH.append_frame h s v
    split
    · rename_i h2 t hp
      rw [hp] at hap
      obtain ⟨hka, hfa⟩ := hap
      have hlen2 : h.length ≤ h2.length := hka.1
      obtain ⟨hk2, hf2⟩ := ih h2 t
      exact ⟨keeps_trans hka hfa hk2, footsub_trans hlen2 hfa hf2⟩
    · rename_i p hp
      rw [hp] at hap
      exact hap

/-- The sort write-back loop over the store. -/
theorem SH.writeBack_frame (l : List V) : ∀ (h : Heap) (s : SH) (i : Nat),
    Keeps s.foot h (runH (SH.writeBack h s i l)).1 ∧
    (runH (SH.writeBack h s i l)).2 = s := by
  induction l with
  | nil => intro h s i; exact ⟨keeps_refl _ _, rfl⟩
  | cons v rest ih =>
    intro h s i
    unfold SH.writeBack
    have hset := SH.setItem_frame h s (i : Int) v
    split
    · rename_i h2 t hst
      rw [hst] at hset
      obtain ⟨hk, hts⟩ := hset
      obtain ⟨hk2, hts2⟩ := ih h2 t (i + 1)
      subst hts
      exact ⟨keeps_trans hk (footsub_refl _ _) hk2, hts2⟩
    · rename_i p hst
      rw [hst] at hset
      exact hset

/-- `sort` over the store. -/
theorem SH.sortOp_frame (h : Heap) (s : SH) (k : Option (V → V)) (r : Bool) :
    Keeps s.foot h (runH (SH.sortOp h s k r)).1 ∧
    FootSub s.foot (runH (SH.sortOp h s k r)).2.foot h.length := by
  unfold SH.sortOp
  split
  · exact ⟨keeps_refl _ _, footsub_refl _ _⟩
  · split
    · exact ⟨keeps_refl _ _, footsub_refl _ _⟩
    · rename_i l hl l2 hl2
      have hwb := SH.writeBack_frame l2 h s 0
      exact ⟨hwb.1, footsub_of_eq hwb.2 _⟩

/-- The reverse loop over the store. -/
theorem SH.revLoop_frame (fuel : Nat) : ∀ (h : Heap) (s : SH) (i n : Nat),
    Keeps s.foot h (runH (SH.revLoop h s i n fuel)).1 ∧
    (runH (SH.revLoop h s i n fuel)).2 = s := by
  induction fuel with
  | zero => intro h s i n; exact ⟨keeps_refl _ _, rfl⟩
  | succ f ih =>
    intro h s i n
    unfold SH.revLoop
    split
    · split
      · exact ⟨keeps_refl _ _, rfl⟩
      · rename_i a ha
        split
        · exact ⟨keeps_refl _ _, rfl⟩
        · rename_i b hb
          have hset1 := SH.setItem_frame h s (i : Int) a
          split
          · rename_i p hst
            rw [hst] at hset1
            exact hset1
          · rename_i h2 t hst
            rw [hst] at hset1
            obtain ⟨hk1, hts1⟩ := hset1
            subst hts1
            have hset2 := SH.setItem_frame h2 t ((n : Int) - i - 1) b
            split
            · rename_i p hst2
              rw [hst2] at hset2
              obtain ⟨hk2, hts2⟩ := hset2
              exact ⟨keeps_trans hk1 (footsub_refl _ _) hk2, hts2⟩
            · rename_i h3 u hst2
              rw [hst2] at hset2
              obtain ⟨hk2, hts2⟩ := hset2
              subst hts2
              obtain ⟨hk3, hts3⟩ := ih h3 u (i + 1) n
              exact ⟨keeps_trans hk1 (footsub_refl _ _)
                (keeps_trans hk2 (footsub_refl _ _) hk3), hts3⟩
    · exact ⟨keeps_refl _ _, rfl⟩

/-- `remove` over the store. -/
theorem SH.removeOp_frame (h : Heap) (s : SH) (v : V) :
    Keeps s.foot h (runH (SH.removeOp h s v)).1 ∧
    FootSub s.foot (runH (SH.removeOp h s v)).2.foot h.length := by
  unfold SH.removeOp
  split
  · exact ⟨keeps_refl _ _, footsub_refl _ _⟩
  · exact SH.delItem_frame h s _

/-- `pop` over the store. -/
theorem SH.popOp_frame (h : Heap) (s : SH) (i : Int) :
    Keeps s.foot h
      (match SH.popOp h s i with | .ok (p, _) => p | .error p => p).1 ∧
    FootSub s.foot
      (match SH.popOp h s i with | .ok (p, _) => p | .error p => p).2.foot
      h.length := by
  unfold SH.popOp
  cases hg : SH.getItem h s i with
  | none => exact ⟨keeps_refl _ _, footsub_refl _ _⟩
  | some v =>
    have hd := SH.delItem_frame h s i
    cases hdel : SH.delItem h s i with
    | ok p => rw [hdel] at hd; exact hd
    | error p => rw [hdel] at hd; exact hd

/-- `KeepsAll n h h2`: the store evolved without touching any cell below
`n` (it may have grown, and fresh cells may have changed). -/
def KeepsAll (n : Nat) (h h2 : Heap) : Prop :=
  h.length ≤ h2.length ∧ ∀ id, id < n → h2[id]? = h[id]?

theorem KeepsAll.refl (n : Nat) (h : Heap) : KeepsAll n h h :=
  ⟨le_refl _, fun _ _ => rfl⟩

theorem KeepsAll.trans {n : Nat} {h h1 h2 : Heap}
    (k1 : KeepsAll n h h1) (k2 : KeepsAll n h1 h2) : KeepsAll n h h2 :=
  ⟨le_trans k1.1 k2.1, fun id hid => (k2.2 id hid).trans (k1.2 id hid)⟩

/-- A successful write to an address at or above `n` keeps all cells
below `n`. -/
theorem hSet_keepsAll {n : Nat} {h h2 : Heap} {b : Option Nat} {i : Int}
    {v : V} (hb : ∀ id, b = some id → n ≤ id) (hw : hSet h b i v = some h2) :
    KeepsAll n h h2 := by
  obtain ⟨hlen, id, hbid, hcells⟩ := hSet_cells hw
  refine ⟨le_of_eq hlen.symm, fun id2 hid2 => hcells id2 ?_⟩
  have := hb id hbid
  omega

/-- Allocation keeps all cells below the old length. -/
theorem alloc_keepsAll {n : Nat} (h : Heap) (arr : Buf) (hn : n ≤ h.length) :
    KeepsAll n h (h ++ [arr]) := by
  refine ⟨by simp, fun id hid => ?_⟩
  exact List.getElem?_append_left (by omega)

/-- Collapse a copy-loop outcome to the store it leaves behind. -/
def runE : Except Heap Heap → Heap
  | .ok x => x
  | .error x => x

/-- Slot-level effect of a successful in-place write at a non-negative
index: the written slot reads back, every other (address, slot) pair is
unchanged. -/
theorem hGet_hSet_nat {h h2 : Heap} {b : Option Nat} {k : Nat} {v : V}
    (hw : hSet h b (k : Int) v = some h2) :
    (∀ (id : Nat) (m : Nat), (b ≠ some id ∨ m ≠ k) →
      hGet h2 (some id) (m : Int) = hGet h (some id) (m : Int)) ∧
    (∀ id, b = some id → hGet h2 (some id) (k : Int) = some v) := by
  unfold hSet at hw
  split at hw
  · exact absurd hw (by simp)
  · rename_i tid
    split at hw
    · exact absurd hw (by simp)
    · rename_i arr harr
      split at hw
      · exact absurd hw (by simp)
      · rename_i arr2 harr2
        injection hw with hw
        have htid : tid < h.length := (List.getElem?_eq_some.mp harr).1
        subst hw
        constructor
        · intro id m hcond
          by_cases hid : id = tid
          · have hm : m ≠ k := by
              rcases hcond with hc | hc
              · exact absurd (by rw [hid]) hc
              · exact hc
            rw [hid]
            show bufGet (List.set h tid arr2)[tid]? (m : Int) = bufGet h[tid]? (m : Int)
            rw [List.getElem?_set_self htid, harr]
            exact bufGet_bufSet_ne hm harr2
          · show bufGet (List.set h tid arr2)[id]? (m : Int) = bufGet h[id]? (m : Int)
            rw [List.getElem?_set_ne (fun he => hid he.symm)]
        · intro id2 hbid
          injection hbid with hbid
          rw [← hbid]
          show bufGet (List.set h tid arr2)[tid]? (k : Int) = some v
          rw [List.getElem?_set_self htid]
          exact bufGet_bufSet_same harr2

/-- The copy loop only changes slots `≥ i` of the clone's buffers. -/
theorem SH.copyLoop_cell (fuel : Nat) : ∀ (h : Heap) (src c : SH) (i : Nat)
    (h3 : Heap), SH.copyLoop h src c i fuel = .ok h3 →
    ∀ (id : Nat) (m : Nat), (¬ c.foot id ∨ m < i) →
      hGet h3 (some id) (m : Int) = hGet h (some id) (m : Int) := by
  induction fuel with
  | zero =>
    intro h src c i h3 hc id m _
    injection hc with hc
    rw [hc]
  | succ f ih =>
    intro h src c i h3 hc id m hcond
    unfold SH.copyLoop at hc
    split at hc
    · split at hc
      · split at hc
        · exact absurd hc (by simp)
        · rename_i v hv
          split at hc
          · exact absurd hc (by simp)
          · rename_i h2 hw
            have hstep := (hGet_hSet_nat hw).1 id m (by
              rcases hcond with hc2 | hc2
              · exact Or.inl (fun he => hc2 (Or.inl he))
              · exact Or.inr (by omega))
            rw [ih h2 src c (i + 1) h3 hc id m (by tauto), hstep]
      · split at hc
        · split at hc
          · exact absurd hc (by simp)
          · rename_i v hv
            split at hc
            · exact absurd hc (by simp)
            · rename_i h2 hw
              have hstep := (hGet_hSet_nat hw).1 id m (by
                rcases hcond with hc2 | hc2
                · exact Or.inl (fun he => hc2 (Or.inr he))
                · exact Or.inr (by omega))
              rw [ih h2 src c (i + 1) h3 hc id m (by tauto), hstep]
        · exact ih h src c (i + 1) h3 hc id m (by tauto)
    · injection hc with hc
      rw [hc]

/-- The copy loop only writes into the clone's buffers: cells below any
bound dominated by the clone's addresses are untouched. -/
theorem SH.copyLoop_keepsAll (fuel : Nat) : ∀ (h : Heap) (src c : SH)
    (i : Nat) (n : Nat), (∀ id, c.foot id → n ≤ id) →
    KeepsAll n h (runE (SH.copyLoop h src c i fuel)) := by
  induction fuel with
  | zero => intro h src c i n _; exact KeepsAll.refl _ _
  | succ f ih =>
    intro h src c i n hfoot
    unfold SH.copyLoop
    split
    · split
      · split
        · exact KeepsAll.refl _ _
        · rename_i v hv
          split
          · exact KeepsAll.refl _ _
          · rename_i h2 hw
            have hk1 : KeepsAll n h h2 :=
              hSet_keepsAll (fun id hid => hfoot id (Or.inl hid)) hw
            exact hk1.trans (ih h2 src c (i + 1) n hfoot)
      · split
        · split
          · exact KeepsAll.refl _ _
          · rename_i v hv
            split
            · exact KeepsAll.refl _ _
            · rename_i h2 hw
              have hk1 : KeepsAll n h h2 :=
                hSet_keepsAll (fun id hid => hfoot id (Or.inr hid)) hw
              exact hk1.trans (ih h2 src c (i + 1) n hfoot)
        · exact ih h src c (i + 1) n hfoot
    · exact KeepsAll.refl _ _

/-- On success, the copy loop has transported every live slot in
`[i, size)`: the clone's buffers resolve, through the source's migration
range, to the same values the source resolved to before the loop ran. -/
theorem SH.copyLoop_get (fuel : Nat) : ∀ (h : Heap) (src c : SH) (i : Nat)
    (h3 : Heap), SH.copyLoop h src c i fuel = .ok h3 →
    i + fuel = src.size →
    (∀ id, src.foot id → ¬ c.foot id) →
    c.d1.isSome = src.d1.isSome → c.d2.isSome = src.d2.isSome →
    ∀ (m : Nat), i ≤ m → m < src.size →
      (if src.move ≤ (m : Int) ∧ (m : Int) < src.stop
        then hGet h3 c.d1 (m : Int) else hGet h3 c.d2 (m : Int))
      = (if src.move ≤ (m : Int) ∧ (m : Int) < src.stop
        then hGet h src.d1 (m : Int) else hGet h src.d2 (m : Int)) := by
  induction fuel with
  | zero =>
    intro h src c i h3 hc hfuel hdis h1s h2s m him hm
    omega
  | succ f ih =>
    intro h src c i h3 hc hfuel hdis h1s h2s m him hm
    unfold SH.copyLoop at hc
    rw [if_pos (by omega : i < src.size)] at hc
    by_cases hbm : i = m
    · -- the iteration that handled slot m
      subst hbm
      split at hc
      · rename_i hb1
        -- migration range and _data1 present: copied via _data1
        obtain ⟨hrange, hd1s⟩ := hb1
        split at hc
        · exact absurd hc (by simp)
        · rename_i v hv
          split at hc
          · exact absurd hc (by simp)
          · rename_i h2 hw
            rw [if_pos hrange, if_pos hrange]
            have hcell := SH.copyLoop_cell f h2 src c (i + 1) h3 hc
            obtain ⟨cid, hcid⟩ := Option.isSome_iff_exists.mp
              (h1s.symm ▸ hd1s : c.d1.isSome = true)
            rw [hcid]
            rw [hcell cid i (Or.inr (by omega))]
            have hread := (hGet_hSet_nat (hcid ▸ hw)).2 cid rfl
            rw [hread]
            exact hv.symm
      · rename_i hb1
        split at hc
        · rename_i hd2s
          split at hc
          · exact absurd hc (by simp)
          · rename_i v hv
            split at hc
            · exact absurd hc (by simp)
            · rename_i h2 hw
              by_cases hrange : src.move ≤ (i : Int) ∧ (i : Int) < src.stop
              · -- in range but _data1 absent on both sides
                rw [if_pos hrange, if_pos hrange]
                have hd1n : src.d1 = none := by
                  cases hsd : src.d1 with
                  | none => rfl
                  | some x => exact absurd ⟨hrange, by simp [hsd]⟩ hb1
                have hc1n : c.d1 = none := by
                  cases hcd : c.d1 with
                  | none => rfl
                  | some x => simp [hcd, hd1n] at h1s
                rw [hd1n, hc1n]
                rfl
              · rw [if_neg hrange, if_neg hrange]
                have hcell := SH.copyLoop_cell f h2 src c (i + 1) h3 hc
                obtain ⟨cid, hcid⟩ := Option.isSome_iff_exists.mp
                  (h2s.symm ▸ hd2s : c.d2.isSome = true)
                rw [hcid]
                rw [hcell cid i (Or.inr (by omega))]
                have hread := (hGet_hSet_nat (hcid ▸ hw)).2 cid rfl
                rw [hread]
                exact hv.symm
        · rename_i hd2n
          -- neither branch ran: both sides resolve to an absent buffer
          by_cases hrange : src.move ≤ (i : Int) ∧ (i : Int) < src.stop
          · rw [if_pos hrange, if_pos hrange]
            have hd1n : src.d1 = none := by
              cases hsd : src.d1 with
              | none => rfl
              | some x => exact absurd ⟨hrange, by simp [hsd]⟩ hb1
            have hc1n : c.d1 = none := by
              cases hcd : c.d1 with
              | none => rfl
              | some x => simp [hcd, hd1n] at h1s
            rw [hd1n, hc1n]
            rfl
          · rw [if_neg hrange, if_neg hrange]
            have hd2nn : src.d2 = none := by
              cases hsd : src.d2 with
              | none => rfl
              | some x => simp [hsd] at hd2n
            have hc2n : c.d2 = none := by
              cases hcd : c.d2 with
              | none => rfl
              | some x => simp [hcd, hd2nn] at h2s
            rw [hd2nn, hc2n]
            rfl
    · -- a later slot: use the induction hypothesis and the fact that this
      -- iteration wrote (if at all) only into the clone, away from the source
      have hmm : i + 1 ≤ m := by omega
      split at hc
      · split at hc
        · exact absurd hc (by simp)
        · rename_i v hv
          split at hc
          · exact absurd hc (by simp)
          · rename_i h2 hw
            have hih := ih h2 src c (i + 1) h3 hc (by omega) hdis h1s h2s m hmm hm
            have hpres : ∀ b2 : Option Nat, (∀ id, b2 = some id → src.foot id) →
                hGet h2 b2 (m : Int) = hGet h b2 (m : Int) := by
              intro b2 hb2
              cases hb : b2 with
              | none => rfl
              | some sid =>
                have hcd1 : c.d1 ≠ some sid := fun he =>
                  hdis sid (hb2 sid hb) (Or.inl he)
                exact (hGet_hSet_nat hw).1 sid m (Or.inl hcd1)
            rw [hih]
            split
            · exact hpres src.d1 (fun id hid => Or.inl hid)
            · exact hpres src.d2 (fun id hid => Or.inr hid)
      · split at hc
        · split at hc
          · exact absurd hc (by simp)
          · rename_i v hv
            split at hc
            · exact absurd hc (by simp)
            · rename_i h2 hw
              have hih := ih h2 src c (i + 1) h3 hc (by omega) hdis h1s h2s m hmm hm
              have hpres : ∀ b2 : Option Nat, (∀ id, b2 = some id → src.foot id) →
                  hGet h2 b2 (m : Int) = hGet h b2 (m : Int) := by
                intro b2 hb2
                cases hb : b2 with
                | none => rfl
                | some sid =>
                  have hcd2 : c.d2 ≠ some sid := fun he =>
                    hdis sid (hb2 sid hb) (Or.inr he)
                  exact (hGet_hSet_nat hw).1 sid m (Or.inl hcd2)
              rw [hih]
              split
              · exact hpres src.d1 (fun id hid => Or.inl hid)
              · exact hpres src.d2 (fun id hid => Or.inr hid)
        · exact ih h src c (i + 1) h3 hc (by omega) hdis h1s h2s m hmm hm

/-- Weakening the protected bound of `KeepsAll`. -/
theorem KeepsAll.mono {n m : Nat} {h h2 : Heap} (hnm : n ≤ m)
    (k : KeepsAll m h h2) : KeepsAll n h h2 :=
  ⟨k.1, fun id hid => k.2 id (by omega)⟩

/-- A store evolution that keeps every cell below the old length keeps any
footprint. -/
theorem keeps_of_keepsAll {F : Nat → Prop} {h h2 : Heap}
    (k : KeepsAll h.length h h2) : Keeps F h h2 :=
  ⟨k.1, fun id hid _ => k.2 id hid⟩

/-- Reading through an address whose cell is unchanged gives the same
result. -/
theorem hGet_congr_cells {h h2 : Heap} {b : Option Nat}
    (hc : ∀ id, b = some id → h2[id]? = h[id]?) (i : Int) :
    hGet h2 b i = hGet h b i := by
  cases hb : b with
  | none => rfl
  | some id =>
    show bufGet h2[id]? i = bufGet h[id]? i
    rw [hc id hb]

/-- `__getitem__` over the store depends only on the container's fields and
the cells of its footprint. -/
theorem SH.getItem_congr {h h2 : Heap} {s : SH}
    (hc : ∀ id, s.foot id → h2[id]? = h[id]?) (i : Int) :
    SH.getItem h2 s i = SH.getItem h s i := by
  unfold SH.getItem
  simp only []
  generalize (if i < 0 then (s.size : Int) + i else i) = j
  split
  · split
    · exact hGet_congr_cells (fun id hid => hc id (Or.inl hid)) j
    · exact hGet_congr_cells (fun id hid => hc id (Or.inr hid)) j
  · rfl

/-- The clone-buffer allocation step: keeps all old cells, and the new
address (if any) is fresh. -/
theorem SH.allocLike_spec {h : Heap} {b : Option Nat} {h1 : Heap}
    {b1 : Option Nat} (ha : SH.allocLike h b = some (h1, b1)) :
    KeepsAll h.length h h1 ∧ h.length ≤ h1.length ∧
    (∀ id, b1 = some id → h.length ≤ id ∧ id < h1.length) ∧
    b1.isSome = b.isSome := by
  unfold SH.allocLike at ha
  split at ha
  · injection ha with ha
    rw [Prod.mk.injEq] at ha
    obtain ⟨ha1, ha2⟩ := ha
    subst ha1
    refine ⟨KeepsAll.refl _ _, le_refl _, ?_, by rw [← ha2]⟩
    intro id hid
    rw [← ha2] at hid
    exact absurd hid (by simp)
  · rename_i id2
    split at ha
    · exact absurd ha (by simp)
    · rename_i arr harr
      injection ha with ha
      rw [Prod.mk.injEq] at ha
      obtain ⟨ha1, ha2⟩ := ha
      rw [← ha1, ← ha2]
      refine ⟨alloc_keepsAll h _ (le_refl _), by simp [hAlloc], ?_, by simp [hAlloc]⟩
      intro id hid
      simp only [hAlloc] at hid
      injection hid with hid
      simp only [hAlloc, List.length_append, List.length_singleton]
      omega

/-- `copy` over the store keeps every pre-existing cell, whether it
returns or raises (it writes only into the freshly allocated clone
buffers). -/
theorem SH.copy_keepsAll (h : Heap) (s : SH) :
    KeepsAll h.length h
      (match SH.copy h s with | .ok (h2, _) => h2 | .error h2 => h2) := by
  unfold SH.copy
  cases ha1 : SH.allocLike h s.d1 with
  | none => exact KeepsAll.refl _ _
  | some p1 =>
    obtain ⟨h1, b1⟩ := p1
    simp only []
    obtain ⟨hk1, hlen1, hfr1, hs1⟩ := SH.allocLike_spec ha1
    cases ha2 : SH.allocLike h1 s.d2 with
    | none => exact hk1
    | some p2 =>
      obtain ⟨h2, b2⟩ := p2
      simp only []
      obtain ⟨hk2, hlen2, hfr2, hs2⟩ := SH.allocLike_spec ha2
      have hk12 : KeepsAll h.length h h2 := hk1.trans (hk2.mono hlen1)
      have hkl := SH.copyLoop_keepsAll s.size h2 s
        { SH.empty with capacity := s.capacity, size := s.size, d1 := b1, d2 := b2 }
        0 h.length (by
          intro id hid
          rcases hid with hfoot | hfoot
          · exact (hfr1 id hfoot).1
          · exact le_trans hlen1 (hfr2 id hfoot).1)
      cases hloop : SH.copyLoop h2 s
          { SH.empty with capacity := s.capacity, size := s.size, d1 := b1, d2 := b2 }
          0 s.size with
      | error h3 =>
        rw [hloop] at hkl
        exact hk12.trans hkl
      | ok h3 =>
        rw [hloop] at hkl
        exact hk12.trans hkl

/-- What a successful store-level `copy` guarantees: the clone reproduces
`_capacity`, `_size`, `_move` and `_stop`; its buffers are freshly
allocated (disjoint from every pre-existing address, in particular from the
source's); no pre-existing cell is touched; and both the clone and the
untouched source read back exactly the source's previous contents at every
index. -/
theorem SH.copy_spec {h : Heap} {s : SH} {h3 : Heap} {c : SH}
    (hv : ∀ id, s.foot id → id < h.length)
    (hc : SH.copy h s = .ok (h3, c)) :
    c.capacity = s.capacity ∧ c.size = s.size ∧ c.move = s.move ∧ c.stop = s.stop ∧
    (∀ id, c.foot id → h.length ≤ id ∧ id < h3.length) ∧
    (∀ id, s.foot id → ¬ c.foot id) ∧
    KeepsAll h.length h h3 ∧
    (∀ i : Int, SH.getItem h3 c i = SH.getItem h s i) ∧
    (∀ i : Int, SH.getItem h3 s i = SH.getItem h s i) := by
  unfold SH.copy at hc
  cases ha1 : SH.allocLike h s.d1 with
  | none => rw [ha1] at hc; exact absurd hc (by simp)
  | some p1 =>
    obtain ⟨h1, b1⟩ := p1
    rw [ha1] at hc
    simp only [] at hc
    obtain ⟨hk1, hlen1, hfr1, hs1⟩ := SH.allocLike_spec ha1
    cases ha2 : SH.allocLike h1 s.d2 with
    | none => rw [ha2] at hc; exact absurd hc (by simp)
    | some p2 =>
      obtain ⟨h2, b2⟩ := p2
      rw [ha2] at hc
      simp only [] at hc
      obtain ⟨hk2, hlen2, hfr2, hs2⟩ := SH.allocLike_spec ha2
      have hk12 : KeepsAll h.length h h2 := hk1.trans (hk2.mono hlen1)
      have hfoot0 : ∀ id, SH.foot { SH.empty with capacity := s.capacity, size := s.size, d1 := b1, d2 := b2 } id → h.length ≤ id := by
        intro id hid
        rcases hid with hfoot | hfoot
        · exact (hfr1 id hfoot).1
        · exact le_trans hlen1 (hfr2 id hfoot).1
      cases hloop : SH.copyLoop h2 s
          { SH.empty with capacity := s.capacity, size := s.size, d1 := b1, d2 := b2 }
          0 s.size with
      | error h4 => rw [hloop] at hc; exact absurd hc (by simp)
      | ok h4 =>
        rw [hloop] at hc
        simp only [] at hc
        injection hc with hc
        rw [Prod.mk.injEq] at hc
        obtain ⟨hch, hcc⟩ := hc
        subst hch
        subst hcc
        have hkl := SH.copyLoop_keepsAll s.size h2 s
          { SH.empty with capacity := s.capacity, size := s.size, d1 := b1, d2 := b2 }
          0 h.length hfoot0
        rw [hloop] at hkl
        have hKA : KeepsAll h.length h h4 := hk12.trans hkl
        have hlen24 : h2.length ≤ h4.length := hkl.1
        have hdis : ∀ id, s.foot id → ¬ (b1 = some id ∨ b2 = some id) := by
          intro id hid hfoot
          have hlt := hv id hid
          rcases hfoot with hfoot | hfoot
          · have := (hfr1 id hfoot).1
            omega
          · have := (hfr2 id hfoot).1
            omega
        have hcells12 : ∀ id, s.foot id → h2[id]? = h[id]? := by
          intro id hid
          exact hk12.2 id (hv id hid)
        have hget := SH.copyLoop_get s.size h2 s
          { SH.empty with capacity := s.capacity, size := s.size, d1 := b1, d2 := b2 }
          0 h4 hloop (by omega) hdis (by rw [hs1]) (by rw [hs2])
        refine ⟨rfl, rfl, rfl, rfl, ?_, ?_, hKA, ?_, ?_⟩
        · intro id hid
          rcases hid with hfoot | hfoot
          · exact ⟨(hfr1 id hfoot).1, by have := (hfr1 id hfoot).2; omega⟩
          · exact ⟨le_trans hlen1 (hfr2 id hfoot).1,
              by have := (hfr2 id hfoot).2; omega⟩
        · exact hdis
        · intro i
          unfold SH.getItem
          simp only []
          generalize (if i < 0 then (s.size : Int) + i else i) = j
          split
          · rename_i hb
            have hj : 0 ≤ j := hb.1
            have hjs : j < (s.size : Int) := hb.2
            have hptr := hget j.toNat (by omega) (by omega)
            rw [Int.toNat_of_nonneg hj] at hptr
            split
            · rename_i hbr
              rw [if_pos hbr, if_pos hbr] at hptr
              exact hptr.trans
                (hGet_congr_cells (fun id hid => hcells12 id (Or.inl hid)) _)
            · rename_i hbr
              rw [if_neg hbr, if_neg hbr] at hptr
              exact hptr.trans
                (hGet_congr_cells (fun id hid => hcells12 id (Or.inr hid)) _)
          · rfl
        · exact SH.getItem_congr (fun id hid => hKA.2 id (hv id hid))

/-- Any single public operation on a store-based `SmoothArray` keeps every
already-allocated cell outside the container's own footprint, and the
resulting footprint only mentions old addresses the container already held
or freshly allocated ones. -/
theorem SH.run_frame (o : Op) (h : Heap) (s : SH) :
    Keeps s.foot h (SH.run h s o).1 ∧
    FootSub s.foot (SH.run h s o).2.foot h.length := by
  cases o with
  | get i => exact ⟨keeps_refl _ _, footsub_refl _ _⟩
  | set i v =>
    obtain ⟨hk, he⟩ := SH.setItem_frame h s i v
    exact ⟨hk, footsub_of_eq he h.length⟩
  | del i => exact SH.delItem_frame h s i
  | app v => exact SH.append_frame h s v
  | ins i v => exact SH.insert_frame h s i v
  | ext l => exact SH.extend_frame l h s
  | rem v => exact SH.removeOp_frame h s v
  | pop i => exact SH.popOp_frame h s i
  | srt k r => exact SH.sortOp_frame h s k r
  | rev =>
    obtain ⟨hk, he⟩ := SH.revLoop_frame (s.size / 2) h s 0 s.size
    exact ⟨hk, footsub_of_eq he h.length⟩
  | clr =>
    refine ⟨keeps_refl _ _, ?_⟩
    intro id hid
    rcases hid with hid | hid <;> simp [SH.run, SH.clearOp, SH.empty] at hid
  | cpy =>
    have hka := SH.copy_keepsAll h s
    unfold SH.run
    cases hc : SH.copy h s with
    | ok p =>
      obtain ⟨h2, c⟩ := p
      rw [hc] at hka
      exact ⟨keeps_of_keepsAll hka, footsub_refl _ _⟩
    | error h2 =>
      rw [hc] at hka
      exact ⟨keeps_of_keepsAll hka, footsub_refl _ _⟩

/-! ### The `AmortizedArray` over the same store

The same device for `src/amortizedarray.py`: the single `_data` buffer
lives in the shared `Heap`, so an `AmortizedArray` clone and its source
alias exactly when they hold the same address. -/

/-- `AmortizedArray` state over the store: as `AA` but with a buffer
address instead of an inline buffer. -/
structure AH where
  capacity : Nat
  size : Nat
  d : Option Nat
deriving DecidableEq

/-- Fresh `AmortizedArray()` (store untouched). -/
def AH.empty : AH := { capacity := 0, size := 0, d := none }

/-- `AmortizedArray.__getitem__` over the store. -/
def AH.getItem (h : Heap) (a : AH) (i : Int) : Option V :=
  let j : Int := if i < 0 then (a.size : Int) + i else i
  if 0 ≤ j ∧ j < (a.size : Int) then hGet h a.d j else none

/-- `AmortizedArray.__setitem__` over the store. -/
def AH.setItem (h : Heap) (a : AH) (i : Int) (v : V) :
    Except (Heap × AH) (Heap × AH) :=
  let j : Int := if i < 0 then (a.size : Int) + i else i
  if 0 ≤ j ∧ j < (a.size : Int) then
    match hSet h a.d j v with
    | some h2 => .ok (h2, a)
    | none => .error (h, a)
  else .error (h, a)

/-- The `__delitem__` shift loop over the store. -/
def AH.shift (h : Heap) (a : AH) (j : Int) (stop : Int) (fuel : Nat) :
    Except (Heap × AH) (Heap × AH) :=
  match fuel with
  | 0 => .ok (h, a)
  | fuel + 1 =>
    if j < stop then
      match AH.getItem h a j with
      | none => .error (h, a)
      | some v =>
        match AH.setItem h a (j - 1) v with
        | .ok (h2, t) => AH.shift h2 t (j + 1) stop fuel
        | .error p => .error p
    else .ok (h, a)

/-- `AmortizedArray.__delitem__` over the store. -/
def AH.delItem (h : Heap) (a : AH) (i : Int) : Except (Heap × AH) (Heap × AH) :=
  let j : Int := if i < 0 then (a.size : Int) + i else i
  if 0 ≤ j ∧ j < (a.size : Int) then
    match AH.shift h a (j + 1) (a.size : Int) a.size with
    | .error p => .error p
    | .ok (h2, t) => .ok (h2, { t with size := t.size - 1 })
  else .error (h, a)

/-- The resize copy loop of `AmortizedArray.append` over the store:
`for i in range(old_capacity): self._data[i] = old_data[i]` — the bulk
copy of the old buffer into the freshly allocated one; an unset old slot
raises, leaving the store as written so far. -/
def AH.resizeLoop (h : Heap) (old b : Nat) (i : Nat) (n : Nat) (fuel : Nat) :
    Except Heap Heap :=
  match fuel with
  | 0 => .ok h
  | fuel + 1 =>
    if i < n then
      match hGet h (some old) (i : Int) with
      | none => .error h
      | some v =>
        match hSet h (some b) (i : Int) v with
        | none => .error h
        | some h2 => AH.resizeLoop h2 old b (i + 1) n fuel
    else .ok h

/-- `AmortizedArray.append` over the store: allocate capacity 1 on the
first append; else if full, double `_capacity`, allocate a fresh buffer
and bulk-copy every slot of the old buffer into it (`self._data` already
points at the new buffer while the loop runs); then store the item at
`_size` and increment `_size`. -/
def AH.append (h : Heap) (a : AH) (v : V) : Except (Heap × AH) (Heap × AH) :=
  let step1 : Except (Heap × AH) (Heap × AH) :=
    if a.capacity = 0 then
      .ok ((hAlloc h 1).1, { a with capacity := 1, d := some (hAlloc h 1).2 })
    else if a.size = a.capacity then
      match a.d with
      | none => .error (h, a)
      | some old =>
        match AH.resizeLoop (hAlloc h (a.capacity * 2)).1 old
            (hAlloc h (a.capacity * 2)).2 0 a.capacity a.capacity with
        | .error h2 => .error (h2,
            { a with capacity := a.capacity * 2,
                     d := some (hAlloc h (a.capacity * 2)).2 })
        | .ok h2 => .ok (h2,
            { a with capacity := a.capacity * 2,
                     d := some (hAlloc h (a.capacity * 2)).2 })
    else .ok (h, a)
  match step1 with
  | .error p => .error p
  | .ok (h2, t) =>
    match hSet h2 t.d (t.size : Int) v with
    | none => .error (h2, t)
    | some h3 => .ok (h3, { t with size := t.size + 1 })

/-- The `insert` shift loop over the store. -/
def AH.insLoop (h : Heap) (a : AH) (j : Int) (i : Int) (fuel : Nat) :
    Except (Heap × AH) (Heap × AH) :=
  match fuel with
  | 0 => .ok (h, a)
  | fuel + 1 =>
    if i < j then
      match AH.getItem h a (j - 1) with
      | none => .error (h, a)
      | some v =>
        match AH.setItem h a j v with
        | .ok (h2, t) => AH.insLoop h2 t (j - 1) i fuel
        | .error p => .error p
    else .ok (h, a)

/-- `AmortizedArray.insert` over the store. -/
def AH.insert (h : Heap) (a : AH) (i : Int) (v : V) :
    Except (Heap × AH) (Heap × AH) :=
  let j : Int := (a.size : Int)
  match AH.append h a none with
  | .error p => .error p
  | .ok (h2, t) =>
    match AH.insLoop h2 t j i (2 * t.size + 2) with
    | .error p => .error p
    | .ok (h3, u) => AH.setItem h3 u i v

/-- Iteration over the store. -/
def AH.iterFrom (h : Heap) (a : AH) (k : Nat) (fuel : Nat) : Option (List V) :=
  match fuel with
  | 0 => some []
  | fuel + 1 =>
    if k < a.size then
      match AH.getItem h a (k : Int) with
      | none => none
      | some v =>
        match AH.iterFrom h a (k + 1) fuel with
        | none => none
        | some l => some (v :: l)
    else some []

/-- The observable contents of a store-based `AmortizedArray`. -/
def AH.iterAll (h : Heap) (a : AH) : Option (List V) := AH.iterFrom h a 0 a.size

/-- The `sort` write-back loop over the store. -/
def AH.writeBack (h : Heap) (a : AH) (i : Nat) (l : List V) :
    Except (Heap × AH) (Heap × AH) :=
  match l with
  | [] => .ok (h, a)
  | v :: rest =>
    match AH.setItem h a (i : Int) v with
    | .ok (h2, t) => AH.writeBack h2 t (i + 1) rest
    | .error p => .error p

/-- `AmortizedArray.sort` over the store (`key`/`reverse` unused, as in the
source). -/
def AH.sortOp (h : Heap) (a : AH) (key : Option (V → V)) (rev : Bool) :
    Except (Heap × AH) (Heap × AH) :=
  match AH.iterAll h a with
  | none => .error (h, a)
  | some l =>
    match pySorted l with
    | none => .error (h, a)
    | some l2 => AH.writeBack h a 0 l2

/-- The `reverse` loop over the store. -/
def AH.revLoop (h : Heap) (a : AH) (i : Nat) (n : Nat) (fuel : Nat) :
    Except (Heap × AH) (Heap × AH) :=
  match fuel with
  | 0 => .ok (h, a)
  | fuel + 1 =>
    if i < n / 2 then
      match AH.getItem h a ((n : Int) - i - 1) with
      | none => .error (h, a)
      | some x =>
        match AH.getItem h a (i : Int) with
        | none => .error (h, a)
        | some y =>
          match AH.setItem h a (i : Int) x with
          | .error p => .error p
          | .ok (h2, t) =>
            match AH.setItem h2 t ((n : Int) - i - 1) y with
            | .error p => .error p
            | .ok (h3, u) => AH.revLoop h3 u (i + 1) n fuel
    else .ok (h, a)

/-- `reverse` over the store. -/
def AH.reverseOp (h : Heap) (a : AH) : Except (Heap × AH) (Heap × AH) :=
  AH.revLoop h a 0 a.size (a.size / 2)

/-- The `index` scan over the store. -/
def AH.idxGo (h : Heap) (a : AH) (v : V) (k : Nat) (fuel : Nat) : Option Nat :=
  match fuel with
  | 0 => none
  | fuel + 1 =>
    if k < a.size then
      match AH.getItem h a (k : Int) with
      | none => none
      | some w => if w = v then some k else AH.idxGo h a v (k + 1) fuel
    else none

/-- `index` over the store. -/
def AH.indexOf (h : Heap) (a : AH) (v : V) : Option Nat := AH.idxGo h a v 0 a.size

/-- `remove` over the store. -/
def AH.removeOp (h : Heap) (a : AH) (v : V) : Except (Heap × AH) (Heap × AH) :=
  match AH.indexOf h a v with
  | none => .error (h, a)
  | some k => AH.delItem h a (k : Int)

/-- `pop` over the store. -/
def AH.popOp (h : Heap) (a : AH) (i : Int) :
    Except (Heap × AH) ((Heap × AH) × V) :=
  match AH.getItem h a i with
  | none => .error (h, a)
  | some v =>
    match AH.delItem h a i with
    | .ok p => .ok (p, v)
    | .error p => .error p

/-- `extend` over the store. -/
def AH.extend (h : Heap) (a : AH) (l : List V) : Except (Heap × AH) (Heap × AH) :=
  match l with
  | [] => .ok (h, a)
  | v :: rest =>
    match AH.append h a v with
    | .ok (h2, t) => AH.extend h2 t rest
    | .error p => .error p

/-- The element-copy loop of `AmortizedArray.copy` over the store:
`for i in range(self._size): c._data[i] = self._data[i]`. -/
def AH.copyLoop (h : Heap) (src c : AH) (i : Nat) (fuel : Nat) :
    Except Heap Heap :=
  match fuel with
  | 0 => .ok h
  | fuel + 1 =>
    if i < src.size then
      match hGet h src.d (i : Int) with
      | none => .error h
      | some v =>
        match hSet h c.d (i : Int) v with
        | none => .error h
        | some h2 => AH.copyLoop h2 src c (i + 1) fuel
    else .ok h

/-- `AmortizedArray.copy` over the store: fresh clone record with
`_capacity`/`_size` copied, a freshly allocated buffer of the same length
(or `None`), and the live slots copied one by one. -/
def AH.copy (h : Heap) (a : AH) : Except Heap (Heap × AH) :=
  match SH.allocLike h a.d with
  | none => .error h
  | some (h1, b) =>
    match AH.copyLoop h1 a { capacity := a.capacity, size := a.size, d := b }
        0 a.size with
    | .error h2 => .error h2
    | .ok h2 => .ok (h2, { capacity := a.capacity, size := a.size, d := b })

/-- `AmortizedArray.clear` over the store (the source-defined
`self.__init__()`). -/
def AH.clearOp (h : Heap) (_ : AH) : Heap × AH := (h, AH.empty)

/-- Collapse a store-level `AmortizedArray` outcome to the store and state
it leaves behind. -/
def runHA : Except (Heap × AH) (Heap × AH) → Heap × AH
  | .ok p => p
  | .error p => p

/-- The store and state a store-based `AmortizedArray` is left in after a
public operation (`run` follows the original container, not the clone a
`copy` operation builds). -/
def AH.run (h : Heap) (a : AH) (o : Op) : Heap × AH :=
  match o with
  | .get _ => (h, a)
  | .set i v => runHA (AH.setItem h a i v)
  | .del i => runHA (AH.delItem h a i)
  | .app v => runHA (AH.append h a v)
  | .ins i v => runHA (AH.insert h a i v)
  | .ext l => runHA (AH.extend h a l)
  | .rem v => runHA (AH.removeOp h a v)
  | .pop i =>
    match AH.popOp h a i with
    | .ok (p, _) => p
    | .error p => p
  | .srt k r => runHA (AH.sortOp h a k r)
  | .rev => runHA (AH.reverseOp h a)
  | .clr => AH.clearOp h a
  | .cpy =>
    match AH.copy h a with
    | .ok (h2, _) => (h2, a)
    | .error h2 => (h2, a)

/-- The buffer address held by a store-based `AmortizedArray`. -/
def AH.foot (a : AH) (id : Nat) : Prop := a.d = some id

/-- An `AmortizedArray` state equal to another has the same footprint. -/
theorem footsubA_of_eq {s t : AH} (h : t = s) (n : Nat) : FootSub s.foot t.foot n :=
  fun id hid => Or.inl (h ▸ hid)

/-- `__setitem__` over the store: keeps everything outside the container's
own footprint and returns the state unchanged. -/
theorem AH.setItem_frameA (h : Heap) (a : AH) (i : Int) (v : V) :
    Keeps a.foot h (runHA (AH.setItem h a i v)).1 ∧
    (runHA (AH.setItem h a i v)).2 = a := by
  unfold AH.setItem
  simp only []
  generalize (if i < 0 then (a.size : Int) + i else i) = j
  split
  · split
    · rename_i h2 hw
      exact ⟨hSet_keeps (fun id hid => hid) hw, rfl⟩
    · exact ⟨keeps_refl _ _, rfl⟩
  · exact ⟨keeps_refl _ _, rfl⟩

/-- The delete shift loop over the store. -/
theorem AH.shift_frameA (fuel : Nat) : ∀ (h : Heap) (a : AH) (j st : Int),
    Keeps a.foot h (runHA (AH.shift h a j st fuel)).1 ∧
    (runHA (AH.shift h a j st fuel)).2 = a := by
  induction fuel with
  | zero => intro h a j st; exact ⟨keeps_refl _ _, rfl⟩
  | succ f ih =>
    intro h a j st
    unfold AH.shift
    split
    · split
      · exact ⟨keeps_refl _ _, rfl⟩
      · rename_i v hv
        have hset := AH.setItem_frameA h a (j - 1) v
        split
        · rename_i h2 t hst
          rw [hst] at hset
          obtain ⟨hk, hts⟩ := hset
          obtain ⟨hk2, hts2⟩ := ih h2 t (j + 1) st
          subst hts
          exact ⟨keeps_trans hk (footsub_refl _ _) hk2, hts2⟩
        · rename_i p hst
          rw [hst] at hset
          exact hset
    · exact ⟨keeps_refl _ _, rfl⟩

/-- `__delitem__` over the store. -/
theorem AH.delItem_frameA (h : Heap) (a : AH) (i : Int) :
    Keeps a.foot h (runHA (AH.delItem h a i)).1 ∧
    FootSub a.foot (runHA (AH.delItem h a i)).2.foot h.length := by
  unfold AH.delItem
  simp only []
  generalize (if i < 0 then (a.size : Int) + i else i) = j
  split
  · have hsh := AH.shift_frameA a.size h a (j + 1) (a.size : Int)
    split
    · rename_i p hp
      rw [hp] at hsh
      exact ⟨hsh.1, hsh.2 ▸ footsub_refl _ _⟩
    · rename_i h2 t hp
      rw [hp] at hsh
      obtain ⟨hk, hts⟩ := hsh
      subst hts
      exact ⟨hk, fun id hid => Or.inl hid⟩
  · exact ⟨keeps_refl _ _, footsub_refl _ _⟩

/-- The bulk resize copy loop only writes into the freshly allocated
buffer: every cell below a bound dominated by the target address is
untouched. -/
theorem AH.resizeLoop_keepsAll (fuel : Nat) : ∀ (h : Heap) (old b i n m : Nat),
    m ≤ b → KeepsAll m h (runE (AH.resizeLoop h old b i n fuel)) := by
  induction fuel with
  | zero => intro h old b i n m hm; exact KeepsAll.refl _ _
  | succ f ih =>
    intro h old b i n m hm
    unfold AH.resizeLoop
    split
    · split
      · exact KeepsAll.refl _ _
      · rename_i v hv
        split
        · exact KeepsAll.refl _ _
        · rename_i h2 hw
          exact (hSet_keepsAll (fun id hid => by injection hid with hid; omega) hw).trans
            (ih h2 old b (i + 1) n m hm)
    · exact KeepsAll.refl _ _

/-- `append` over the store: the bulk copy of a resize goes into a fresh
buffer, so every pre-existing cell outside the container's footprint is
kept, and the new footprint adds only fresh addresses. -/
theorem AH.append_frameA (h : Heap) (a : AH) (v : V) :
    Keeps a.foot h (runHA (AH.append h a v)).1 ∧
    FootSub a.foot (runHA (AH.append h a v)).2.foot h.length := by
  unfold AH.append
  simp only []
  by_cases hc0 : a.capacity = 0
  · rw [if_pos hc0]
    simp only []
    split
    · refine ⟨alloc_keeps _ _ _, ?_⟩
      intro id hid
      injection hid with hid
      exact Or.inr (by simp only [hAlloc] at hid; omega)
    · rename_i h3 hw
      have hka : KeepsAll h.length h h3 :=
        (alloc_keepsAll h _ (le_refl _)).trans
          (hSet_keepsAll (fun id hid => by
            injection hid with hid
            simp only [hAlloc] at hid
            omega) hw)
      refine ⟨keeps_of_keepsAll hka, ?_⟩
      intro id hid
      injection hid with hid
      exact Or.inr (by simp only [hAlloc] at hid; omega)
  · rw [if_neg hc0]
    by_cases hsc : a.size = a.capacity
    · rw [if_pos hsc]
      cases had : a.d with
      | none => exact ⟨keeps_refl _ _, footsub_refl _ _⟩
      | some old =>
        simp only []
        have hrka := AH.resizeLoop_keepsAll a.capacity (hAlloc h (a.capacity * 2)).1
          old (hAlloc h (a.capacity * 2)).2 0 a.capacity h.length
          (by simp only [hAlloc]; omega)
        have hbase : KeepsAll h.length h (hAlloc h (a.capacity * 2)).1 :=
          alloc_keepsAll h _ (le_refl _)
        cases hrl : AH.resizeLoop (hAlloc h (a.capacity * 2)).1 old
            (hAlloc h (a.capacity * 2)).2 0 a.capacity a.capacity with
        | error h2 =>
          rw [hrl] at hrka
          refine ⟨keeps_of_keepsAll (hbase.trans hrka), ?_⟩
          intro id hid
          injection hid with hid
          exact Or.inr (by simp only [hAlloc] at hid; omega)
        | ok h2 =>
          rw [hrl] at hrka
          have hk2 : KeepsAll h.length h h2 := hbase.trans hrka
          simp only []
          split
          · refine ⟨keeps_of_keepsAll hk2, ?_⟩
            intro id hid
            injection hid with hid
            exact Or.inr (by simp only [hAlloc] at hid; omega)
          · rename_i h3 hw
            have hk3 : KeepsAll h.length h h3 :=
              hk2.trans (hSet_keepsAll (fun id hid => by
                injection hid with hid
                simp only [hAlloc] at hid
                omega) hw)
            refine ⟨keeps_of_keepsAll hk3, ?_⟩
            intro id hid
            injection hid with hid
            exact Or.inr (by simp only [hAlloc] at hid; omega)
    · rw [if_neg hsc]
      simp only []
      split
      · exact ⟨keeps_refl _ _, footsub_refl _ _⟩
      · rename_i h3 hw
        refine ⟨hSet_keeps (fun id hid => hid) hw, ?_⟩
        intro id hid
        exact Or.inl hid

/-- The insert shift loop over the store. -/
theorem AH.insLoop_frameA (fuel : Nat) : ∀ (h : Heap) (a : AH) (j i : Int),
    Keeps a.foot h (runHA (AH.insLoop h a j i fuel)).1 ∧
    (runHA (AH.insLoop h a j i fuel)).2 = a := by
  induction fuel with
  | zero => intro h a j i; exact ⟨keeps_refl _ _, rfl⟩
  | succ f ih =>
    intro h a j i
    unfold AH.insLoop
    split
    · split
      · exact ⟨keeps_refl _ _, rfl⟩
      · rename_i v hv
        have hset := AH.setItem_frameA h a j v
        split
        · rename_i h2 t hst
          rw [hst] at hset
          obtain ⟨hk, hts⟩ := hset
          obtain ⟨hk2, hts2⟩ := ih h2 t (j - 1) i
          subst hts
          exact ⟨keeps_trans hk (footsub_refl _ _) hk2, hts2⟩
        · rename_i p hst
          rw [hst] at hset
          exact hset
    · exact ⟨keeps_refl _ _, rfl⟩

/-- `insert` over the store. -/
theorem AH.insert_frameA (h : Heap) (a : AH) (i : Int) (v : V) :
    Keeps a.foot h (runHA (AH.insert h a i v)).1 ∧
    FootSub a.foot (runHA (AH.insert h a i v)).2.foot h.length := by
  unfold AH.insert
  simp only []
  have hap := AH.append_frameA h a none
  split
  · rename_i p hp
    rw [hp] at hap
    exact hap
  · rename_i h2 t hp
    rw [hp] at hap
    obtain ⟨hka, hfa⟩ := hap
    have hlen2 : h.length ≤ h2.length := hka.1
    have hloop := AH.insLoop_frameA (2 * t.size + 2) h2 t (a.size : Int) i
    split
    · rename_i p2 hp2
      rw [hp2] at hloop
      exact ⟨keeps_trans hka hfa hloop.1,
        footsub_trans hlen2 hfa (footsubA_of_eq hloop.2 _)⟩
    · rename_i h3 u hp2
      rw [hp2] at hloop
      obtain ⟨hkl, hul⟩ := hloop
      subst hul
      have hset := AH.setItem_frameA h3 u i v
      have hkb : Keeps a.foot h h3 := keeps_trans hka hfa hkl
      have hlen3 : h.length ≤ h3.length := hkb.1
      refine ⟨keeps_trans hkb hfa hset.1, ?_⟩
      exact footsub_trans hlen3 hfa (footsubA_of_eq hset.2 _)

/-- `extend` over the store. -/
theorem AH.extend_frameA (l : List V) : ∀ (h : Heap) (a : AH),
    Keeps a.foot h (runHA (AH.extend h a l)).1 ∧
    FootSub a.foot (runHA (AH.extend h a l)).2.foot h.length := by
  induction l with
  | nil => intro h a; exact ⟨keeps_refl _ _, footsub_refl _ _⟩
  | cons v rest ih =>
    intro h a
    unfold AH.extend
    have hap := AH.append_frameA h a v
    split
    · rename_i h2 t hp
      rw [hp] at hap
      obtain ⟨hka, hfa⟩ := hap
      have hlen2 : h.length ≤ h2.length := hka.1
      obtain ⟨hk2, hf2⟩ := ih h2 t
      exact ⟨keeps_trans hka hfa hk2, footsub_trans hlen2 hfa hf2⟩
    · rename_i p hp
      rw [hp] at hap
      exact hap

/-- The sort write-back loop over the store. -/
theorem AH.writeBack_frameA (l : List V) : ∀ (h : Heap) (a : AH) (i : Nat),
    Keeps a.foot h (runHA (AH.writeBack h a i l)).1 ∧
    (runHA (AH.writeBack h a i l)).2 = a := by
  induction l with
  | nil => intro h a i; exact ⟨keeps_refl _ _, rfl⟩
  | cons v rest ih =>
    intro h a i
    unfold AH.writeBack
    have hset := AH.setItem_frameA h a (i : Int) v
    split
    · rename_i h2 t hst
      rw [hst] at hset
      obtain ⟨hk, hts⟩ := hset
      obtain ⟨hk2, hts2⟩ := ih h2 t (i + 1)
      subst hts
      exact ⟨keeps_trans hk (footsub_refl _ _) hk2, hts2⟩
    · rename_i p hst
      rw [hst] at hset
      exact hset

/-- `sort` over the store. -/
theorem AH.sortOp_frameA (h : Heap) (a : AH) (k : Option (V → V)) (r : Bool) :
    Keeps a.foot h (runHA (AH.sortOp h a k r)).1 ∧
    FootSub a.foot (runHA (AH.sortOp h a k r)).2.foot h.length := by
  unfold AH.sortOp
  split
  · exact ⟨keeps_refl _ _, footsub_refl _ _⟩
  · split
    · exact ⟨keeps_refl _ _, footsub_refl _ _⟩
    · rename_i l hl l2 hl2
      have hwb := AH.writeBack_frameA l2 h a 0
      exact ⟨hwb.1, footsubA_of_eq hwb.2 _⟩

/-- The reverse loop over the store. -/
theorem AH.revLoop_frameA (fuel : Nat) : ∀ (h : Heap) (a : AH) (i n : Nat),
    Keeps a.foot h (runHA (AH.revLoop h a i n fuel)).1 ∧
    (runHA (AH.revLoop h a i n fuel)).2 = a := by
  induction fuel with
  | zero => intro h a i n; exact ⟨keeps_refl _ _, rfl⟩
  | succ f ih =>
    intro h a i n
    unfold AH.revLoop
    split
    · split
      · exact ⟨keeps_refl _ _, rfl⟩
      · rename_i x hx
        split
        · exact ⟨keeps_refl _ _, rfl⟩
        · rename_i y hy
          have hset1 := AH.setItem_frameA h a (i : Int) x
          split
          · rename_i p hst
            rw [hst] at hset1
            exact hset1
          · rename_i h2 t hst
            rw [hst] at hset1
            obtain ⟨hk1, hts1⟩ := hset1
            subst hts1
            have hset2 := AH.setItem_frameA h2 t ((n : Int) - i - 1) y
            split
            · rename_i p hst2
              rw [hst2] at hset2
              obtain ⟨hk2, hts2⟩ := hset2
              exact ⟨keeps_trans hk1 (footsub_refl _ _) hk2, hts2⟩
            · rename_i h3 u hst2
              rw [hst2] at hset2
              obtain ⟨hk2, hts2⟩ := hset2
              subst hts2
              obtain ⟨hk3, hts3⟩ := ih h3 u (i + 1) n
              exact ⟨keeps_trans hk1 (footsub_refl _ _)
                (keeps_trans hk2 (footsub_refl _ _) hk3), hts3⟩
    · exact ⟨keeps_refl _ _, rfl⟩

/-- `remove` over the store. -/
theorem AH.removeOp_frameA (h : Heap) (a : AH) (v : V) :
    Keeps a.foot h (runHA (AH.removeOp h a v)).1 ∧
    FootSub a.foot (runHA (AH.removeOp h a v)).2.foot h.length := by
  unfold AH.removeOp
  split
  · exact ⟨keeps_refl _ _, footsub_refl _ _⟩
  · exact AH.delItem_frameA h a _

/-- `pop` over the store. -/
theorem AH.popOp_frameA (h : Heap) (a : AH) (i : Int) :
    Keeps a.foot h
      (match AH.popOp h a i with | .ok (p, _) => p | .error p => p).1 ∧
    FootSub a.foot
      (match AH.popOp h a i with | .ok (p, _) => p | .error p => p).2.foot
      h.length := by
  unfold AH.popOp
  cases hg : AH.getItem h a i with
  | none => exact ⟨keeps_refl _ _, footsub_refl _ _⟩
  | some v =>
    have hd := AH.delItem_frameA h a i
    cases hdel : AH.delItem h a i with
    | ok p => rw [hdel] at hd; exact hd
    | error p => rw [hdel] at hd; exact hd

/-- The `AmortizedArray` copy loop only changes slots `≥ i` of the clone's
buffer. -/
theorem AH.copyLoop_cellA (fuel : Nat) : ∀ (h : Heap) (src c : AH) (i : Nat)
    (h3 : Heap), AH.copyLoop h src c i fuel = .ok h3 →
    ∀ (id : Nat) (m : Nat), (¬ c.foot id ∨ m < i) →
      hGet h3 (some id) (m : Int) = hGet h (some id) (m : Int) := by
  induction fuel with
  | zero =>
    intro h src c i h3 hc id m _
    injection hc with hc
    rw [hc]
  | succ f ih =>
    intro h src c i h3 hc id m hcond
    unfold AH.copyLoop at hc
    split at hc
    · split at hc
      · exact absurd hc (by simp)
      · rename_i v hv
        split at hc
        · exact absurd hc (by simp)
        · rename_i h2 hw
          have hstep := (hGet_hSet_nat hw).1 id m (by
            rcases hcond with hc2 | hc2
            · exact Or.inl (fun he => hc2 he)
            · exact Or.inr (by omega))
          rw [ih h2 src c (i + 1) h3 hc id m (by tauto), hstep]
    · injection hc with hc
      rw [hc]

/-- The `AmortizedArray` copy loop only writes into the clone's buffer. -/
theorem AH.copyLoop_keepsAllA (fuel : Nat) : ∀ (h : Heap) (src c : AH)
    (i : Nat) (n : Nat), (∀ id, c.foot id → n ≤ id) →
    KeepsAll n h (runE (AH.copyLoop h src c i fuel)) := by
  induction fuel with
  | zero => intro h src c i n _; exact KeepsAll.refl _ _
  | succ f ih =>
    intro h src c i n hfoot
    unfold AH.copyLoop
    split
    · split
      · exact KeepsAll.refl _ _
      · rename_i v hv
        split
        · exact KeepsAll.refl _ _
        · rename_i h2 hw
          exact (hSet_keepsAll (fun id hid => hfoot id hid) hw).trans
            (ih h2 src c (i + 1) n hfoot)
    · exact KeepsAll.refl _ _

/-- On success, the `AmortizedArray` copy loop has transported every slot
in `[i, size)` to the clone's buffer, reading back the source's pre-loop
values. -/
theorem AH.copyLoop_getA (fuel : Nat) : ∀ (h : Heap) (src c : AH) (i : Nat)
    (h3 : Heap), AH.copyLoop h src c i fuel = .ok h3 →
    i + fuel = src.size →
    (∀ id, src.foot id → ¬ c.foot id) →
    ∀ (m : Nat), i ≤ m → m < src.size →
      hGet h3 c.d (m : Int) = hGet h src.d (m : Int) := by
  induction fuel with
  | zero =>
    intro h src c i h3 hc hfuel hdis m him hm
    omega
  | succ f ih =>
    intro h src c i h3 hc hfuel hdis m him hm
    unfold AH.copyLoop at hc
    rw [if_pos (by omega : i < src.size)] at hc
    by_cases hbm : i = m
    · subst hbm
      split at hc
      · exact absurd hc (by simp)
      · rename_i v hv
        split at hc
        · exact absurd hc (by simp)
        · rename_i h2 hw
          have hcell := AH.copyLoop_cellA f h2 src c (i + 1) h3 hc
          obtain ⟨_, cid, hcid, _⟩ := hSet_cells hw
          rw [hcid]
          rw [hcell cid i (Or.inr (by omega))]
          have hread := (hGet_hSet_nat (hcid ▸ hw)).2 cid rfl
          rw [hread]
          exact hv.symm
    · have hmm : i + 1 ≤ m := by omega
      split at hc
      · exact absurd hc (by simp)
      · rename_i v hv
        split at hc
        · exact absurd hc (by simp)
        · rename_i h2 hw
          have hih := ih h2 src c (i + 1) h3 hc (by omega) hdis m hmm hm
          rw [hih]
          cases hb : src.d with
          | none => rfl
          | some sid =>
            have hcd : c.d ≠ some sid := fun he => hdis sid hb he
            exact (hGet_hSet_nat hw).1 sid m (Or.inl hcd)

/-- `AmortizedArray.copy` over the store keeps every pre-existing cell,
whether it returns or raises. -/
theorem AH.copy_keepsAllA (h : Heap) (a : AH) :
    KeepsAll h.length h
      (match AH.copy h a with | .ok (h2, _) => h2 | .error h2 => h2) := by
  unfold AH.copy
  cases ha1 : SH.allocLike h a.d with
  | none => exact KeepsAll.refl _ _
  | some p1 =>
    obtain ⟨h1, b⟩ := p1
    simp only []
    obtain ⟨hk1, hlen1, hfr1, hs1⟩ := SH.allocLike_spec ha1
    have hkl := AH.copyLoop_keepsAllA a.size h1 a
      { capacity := a.capacity, size := a.size, d := b } 0 h.length (by
        intro id hid
        exact (hfr1 id hid).1)
    cases hloop : AH.copyLoop h1 a
        { capacity := a.capacity, size := a.size, d := b } 0 a.size with
    | error h3 =>
      rw [hloop] at hkl
      exact hk1.trans hkl
    | ok h3 =>
      rw [hloop] at hkl
      exact hk1.trans hkl

/-- Reading an `AmortizedArray` through unchanged cells gives the same
result. -/
theorem AH.getItem_congrA {h h2 : Heap} {a : AH}
    (hc : ∀ id, a.foot id → h2[id]? = h[id]?) (i : Int) :
    AH.getItem h2 a i = AH.getItem h a i := by
  unfold AH.getItem
  simp only []
  generalize (if i < 0 then (a.size : Int) + i else i) = j
  split
  · exact hGet_congr_cells (fun id hid => hc id hid) _
  · rfl

/-- What a successful store-level `AmortizedArray.copy` guarantees: the
clone reproduces `_capacity` and `_size`, its buffer is freshly allocated
and disjoint from every pre-existing address, no pre-existing cell is
touched, and both the clone and the untouched source read back exactly the
source's previous contents at every index. -/
theorem AH.copy_specA {h : Heap} {a : AH} {h3 : Heap} {c : AH}
    (hv : ∀ id, a.foot id → id < h.length)
    (hc : AH.copy h a = .ok (h3, c)) :
    c.capacity = a.capacity ∧ c.size = a.size ∧
    (∀ id, c.foot id → h.length ≤ id ∧ id < h3.length) ∧
    (∀ id, a.foot id → ¬ c.foot id) ∧
    KeepsAll h.length h h3 ∧
    (∀ i : Int, AH.getItem h3 c i = AH.getItem h a i) ∧
    (∀ i : Int, AH.getItem h3 a i = AH.getItem h a i) := by
  unfold AH.copy at hc
  cases ha1 : SH.allocLike h a.d with
  | none => rw [ha1] at hc; exact absurd hc (by simp)
  | some p1 =>
    obtain ⟨h1, b⟩ := p1
    rw [ha1] at hc
    simp only [] at hc
    obtain ⟨hk1, hlen1, hfr1, hs1⟩ := SH.allocLike_spec ha1
    have hfoot0 : ∀ id, AH.foot { capacity := a.capacity, size := a.size, d := b } id → h.length ≤ id := by
      intro id hid
      exact (hfr1 id hid).1
    cases hloop : AH.copyLoop h1 a
        { capacity := a.capacity, size := a.size, d := b } 0 a.size with
    | error h4 => rw [hloop] at hc; exact absurd hc (by simp)
    | ok h4 =>
      rw [hloop] at hc
      simp only [] at hc
      injection hc with hc
      rw [Prod.mk.injEq] at hc
      obtain ⟨hch, hcc⟩ := hc
      subst hch
      subst hcc
      have hkl := AH.copyLoop_keepsAllA a.size h1 a
        { capacity := a.capacity, size := a.size, d := b } 0 h.length hfoot0
      rw [hloop] at hkl
      have hKA : KeepsAll h.length h h4 := hk1.trans hkl
      have hlen14 : h1.length ≤ h4.length := hkl.1
      have hdis : ∀ id, a.foot id → ¬ b = some id := by
        intro id hid hfoot
        have hlt := hv id hid
        have := (hfr1 id hfoot).1
        omega
      have hcells1 : ∀ id, a.foot id → h1[id]? = h[id]? := by
        intro id hid
        exact hk1.2 id (hv id hid)
      have hget := AH.copyLoop_getA a.size h1 a
        { capacity := a.capacity, size := a.size, d := b } 0 h4 hloop
        (by omega) hdis
      refine ⟨rfl, rfl, ?_, hdis, hKA, ?_, ?_⟩
      · intro id hid
        exact ⟨(hfr1 id hid).1, by have := (hfr1 id hid).2; omega⟩
      · intro i
        unfold AH.getItem
        simp only []
        generalize (if i < 0 then (a.size : Int) + i else i) = j
        split
        · rename_i hb
          have hj : 0 ≤ j := hb.1
          have hptr := hget j.toNat (by omega) (by omega)
          rw [Int.toNat_of_nonneg hj] at hptr
          exact hptr.trans (hGet_congr_cells (fun id hid => hcells1 id hid) _)
        · rfl
      · exact AH.getItem_congrA (fun id hid => hKA.2 id (hv id hid))

/-- Any single public operation on a store-based `AmortizedArray` keeps
every already-allocated cell outside the container's own footprint, and
the resulting footprint only mentions old addresses or fresh ones. -/
theorem AH.run_frameA (o : Op) (h : Heap) (a : AH) :
    Keeps a.foot h (AH.run h a o).1 ∧
    FootSub a.foot (AH.run h a o).2.foot h.length := by
  cases o with
  | get i => exact ⟨keeps_refl _ _, footsub_refl _ _⟩
  | set i v =>
    obtain ⟨hk, he⟩ := AH.setItem_frameA h a i v
    exact ⟨hk, footsubA_of_eq he h.length⟩
  | del i => exact AH.delItem_frameA h a i
  | app v => exact AH.append_frameA h a v
  | ins i v => exact AH.insert_frameA h a i v
  | ext l => exact AH.extend_frameA l h a
  | rem v => exact AH.removeOp_frameA h a v
  | pop i => exact AH.popOp_frameA h a i
  | srt k r => exact AH.sortOp_frameA h a k r
  | rev =>
    obtain ⟨hk, he⟩ := AH.revLoop_frameA (a.size / 2) h a 0 a.size
    exact ⟨hk, footsubA_of_eq he h.length⟩
  | clr =>
    refine ⟨keeps_refl _ _, ?_⟩
    intro id hid
    simp [AH.run, AH.clearOp, AH.empty, AH.foot] at hid
  | cpy =>
    have hka := AH.copy_keepsAllA h a
    unfold AH.run
    cases hc : AH.copy h a with
    | ok p =>
      obtain ⟨h2, c⟩ := p
      rw [hc] at hka
      exact ⟨keeps_of_keepsAll hka, footsub_refl _ _⟩
    | error h2 =>
      rw [hc] at hka
      exact ⟨keeps_of_keepsAll hka, footsub_refl _ _⟩

/-- Concrete store and `SmoothArray` state used to witness the deep-copy
theorem (the state a fresh container is left in after appending 1 and 2). -/
def wH0 : Heap := [[some (some 1)], [some (some 1), some (some 2)]]

def wS0 : SH :=
  { capacity := 2, size := 2, d1 := some 0, d2 := some 1, move := 1, stop := 1 }

def wH3 : Heap :=
  [[some (some 1)], [some (some 1), some (some 2)], [none],
   [some (some 1), some (some 2)]]

def wC0 : SH :=
  { capacity := 2, size := 2, d1 := some 2, d2 := some 3, move := 1, stop := 1 }

/-- Concrete store and `AmortizedArray` state for the same witness. -/
def wG0 : Heap := [[some (some 5), some (some 6)]]

def wA0 : AH := { capacity := 2, size := 2, d := some 0 }

def wG3 : Heap := [[some (some 5), some (some 6)], [some (some 5), some (some 6)]]

def wA1 : AH := { capacity := 2, size := 2, d := some 1 }

/-- C8 (amended): over the store model, whenever `copy()` returns (which it
can fail to do — see the recorded counterexample), the clone of either
container reproduces `_capacity`, `_size` and — for the `SmoothArray` —
`migrate_cursor`/`migrate_boundary`, reads back exactly the source's
contents at every index, leaves the source's reads unchanged, holds only
freshly allocated buffers disjoint from the source's, and is fully
independent: any subsequent public operation applied to the clone leaves
every read of the original unchanged, and any public operation applied to
the original leaves every read of the clone unchanged. -/
theorem copy_independent_fresh :
    (∀ (h : Heap) (s : SH) (h3 : Heap) (c : SH),
      (∀ id, s.foot id → id < h.length) →
      SH.copy h s = .ok (h3, c) →
      c.capacity = s.capacity ∧ c.size = s.size ∧
      c.move = s.move ∧ c.stop = s.stop ∧
      (∀ i : Int, SH.getItem h3 c i = SH.getItem h s i) ∧
      (∀ i : Int, SH.getItem h3 s i = SH.getItem h s i) ∧
      (∀ id, s.foot id → ¬ c.foot id) ∧
      (∀ (o : Op) (i : Int),
        SH.getItem (SH.run h3 c o).1 s i = SH.getItem h3 s i) ∧
      (∀ (o : Op) (i : Int),
        SH.getItem (SH.run h3 s o).1 c i = SH.getItem h3 c i)) ∧
    (∀ (h : Heap) (a : AH) (h3 : Heap) (c : AH),
      (∀ id, a.foot id → id < h.length) →
      AH.copy h a = .ok (h3, c) →
      c.capacity = a.capacity ∧ c.size = a.size ∧
      (∀ i : Int, AH.getItem h3 c i = AH.getItem h a i) ∧
      (∀ i : Int, AH.getItem h3 a i = AH.getItem h a i) ∧
      (∀ id, a.foot id → ¬ c.foot id) ∧
      (∀ (o : Op) (i : Int),
        AH.getItem (AH.run h3 c o).1 a i = AH.getItem h3 a i) ∧
      (∀ (o : Op) (i : Int),
        AH.getItem (AH.run h3 a o).1 c i = AH.getItem h3 c i)) := by
  constructor
  · intro h s h3 c hv hc
    obtain ⟨hcap, hsz, hmv, hst, hfresh, hdis, hKA, hcl, hsrc⟩ := SH.copy_spec hv hc
    have hvs3 : ∀ id, s.foot id → id < h3.length := fun id hid =>
      lt_of_lt_of_le (hv id hid) hKA.1
    refine ⟨hcap, hsz, hmv, hst, hcl, hsrc, hdis, ?_, ?_⟩
    · intro o i
      obtain ⟨hk, _⟩ := SH.run_frame o h3 c
      exact SH.getItem_congr
        (fun id hid => hk.2 id (hvs3 id hid) (hdis id hid)) i
    · intro o i
      obtain ⟨hk, _⟩ := SH.run_frame o h3 s
      exact SH.getItem_congr
        (fun id hid => hk.2 id (hfresh id hid).2 (fun hsid => hdis id hsid hid)) i
  · intro h a h3 c hv hc
    obtain ⟨hcap, hsz, hfresh, hdis, hKA, hcl, hsrc⟩ := AH.copy_specA hv hc
    have hva3 : ∀ id, a.foot id → id < h3.length := fun id hid =>
      lt_of_lt_of_le (hv id hid) hKA.1
    refine ⟨hcap, hsz, hcl, hsrc, hdis, ?_, ?_⟩
    · intro o i
      obtain ⟨hk, _⟩ := AH.run_frameA o h3 c
      exact AH.getItem_congrA
        (fun id hid => hk.2 id (hva3 id hid) (hdis id hid)) i
    · intro o i
      obtain ⟨hk, _⟩ := AH.run_frameA o h3 a
      exact AH.getItem_congrA
        (fun id hid => hk.2 id (hfresh id hid).2 (fun haid => hdis id haid hid)) i

/-- Witness for `copy_independent_fresh`: a concrete two-element
`SmoothArray` (mid-migration) and `AmortizedArray`, their successful
copies, and one mutation of each clone observed not to change the
original. -/
theorem copy_independent_fresh_witness :
    (∀ id, wS0.foot id → id < wH0.length) ∧
    SH.copy wH0 wS0 = .ok (wH3, wC0) ∧
    (∀ id, wA0.foot id → id < wG0.length) ∧
    AH.copy wG0 wA0 = .ok (wG3, wA1) ∧
    SH.getItem (SH.run wH3 wC0 (.set 0 (some 99))).1 wS0 0
      = SH.getItem wH3 wS0 0 ∧
    AH.getItem (AH.run wG3 wA1 (.set 0 (some 99))).1 wA0 0
      = AH.getItem wG3 wA0 0 :=
  ⟨fun id hid => by
      rcases hid with hid | hid <;> (injection hid with hid; subst hid; decide),
   rfl,
   fun id hid => by injection hid with hid; subst hid; decide,
   rfl,
   (copy_independent_fresh.1 wH0 wS0 wH3 wC0
      (fun id hid => by
        rcases hid with hid | hid <;> (injection hid with hid; subst hid; decide))
      rfl).2.2.2.2.2.2.2.1 (.set 0 (some 99)) 0,
   (copy_independent_fresh.2 wG0 wA0 wG3 wA1
      (fun id hid => by injection hid with hid; subst hid; decide)
      rfl).2.2.2.2.2.1 (.set 0 (some 99)) 0⟩
